import Mathlib

/-!
Verification development for the tile-based 1D cellular automaton engine
(rule evaluator, tile producer, LRU tile cache, viewport planner/assembler,
interaction controller).  Machine integers are modelled as `Nat`/`Int`
(the modelled scenarios stay far from the wrap-around range), GPU buffers as
flat `Nat → Nat` index maps, and `f32` viewport coordinates as `ℚ`
(every concrete value used is exactly representable in `f32`).
-/

/-! ## Rule evaluator and CA semantics

`ruleBit` is modelled from the spec (section 4.1 and the render contract):
the compute kernel lives in `shaders/ca_compute.wgsl`, which is not part of
the Rust sources; the spec defines the next value of a cell as bit
`l*4 + c*2 + rt` of the rule byte, out-of-range neighbours reading as 0. -/

/-- Bit value of an initial-state character, from `compute.rs`:
`if ch == '1' { 1 } else { 0 }`. -/
def charBit (c : Char) : Nat := if c = '1' then 1 else 0

/-- Modelled from the spec: `next(r, l, c, rt)` is bit `l*4 + c*2 + rt` of `r`. -/
def ruleBit (rule l c r : Nat) : Nat := (rule / 2 ^ (4 * l + 2 * c + r)) % 2

/-- Generation 0 of the infinite world: a single 1 at world position 0 by
default, or the bits of the explicit initial-state string laid out from
world position 0 rightward (spec section 3, InitialState). -/
def worldInit (state : Option (List Char)) : Int → Nat :=
  fun x =>
    match state with
    | none => if x = 0 then 1 else 0
    | some s => if 0 ≤ x ∧ x < (s.length : Int) then charBit (s.getD x.toNat '0') else 0

/-- One generation step of the infinite world. -/
def worldStep (rule : Nat) (row : Int → Nat) : Int → Nat :=
  fun x => ruleBit rule (row (x - 1)) (row x) (row (x + 1))

/-- Row `g` of the infinite world evolved from `init`. -/
def worldRow (rule : Nat) (init : Int → Nat) : Nat → Int → Nat
  | 0 => init
  | g + 1 => worldStep rule (worldRow rule init g)

/-- Left neighbour inside a finite padded row buffer; column `-1` reads 0,
as the kernel clamps out-of-range reads to 0. -/
def leftNeighbor (row : List Nat) (x : Nat) : Nat :=
  if x = 0 then 0 else row.getD (x - 1) 0

/-- One kernel dispatch over a finite padded row: each column `x` of the next
row is `next(rule, row[x-1], row[x], row[x+1])` with out-of-range reads 0. -/
def stepRow (rule : Nat) (row : List Nat) : List Nat :=
  (List.range row.length).map
    (fun x => ruleBit rule (leftNeighbor row x) (row.getD x 0) (row.getD (x + 1) 0))

/-- Row `g` of the finite padded simulation started from `row0`
(the contents of simulation-buffer row `g` after `g` kernel dispatches). -/
def simRows (rule : Nat) (row0 : List Nat) : Nat → List Nat
  | 0 => row0
  | g + 1 => stepRow rule (simRows rule row0 g)

theorem stepRow_length (rule : Nat) (row : List Nat) :
    (stepRow rule row).length = row.length := by
  simp [stepRow]

theorem simRows_length (rule : Nat) (row0 : List Nat) (g : Nat) :
    (simRows rule row0 g).length = row0.length := by
  induction g with
  | zero => rfl
  | succ g ih => simp [simRows, stepRow_length, ih]

/-! ## Generation-0 row construction (`compute.rs`)

Both `compute_tile` and `run_ca` build the first row of the simulation buffer
the same way: start from an all-zero row of width `simulated_width`; with an
explicit initial state write `charBit s[i]` at buffer column `base + i`
whenever that column is in range; with the default state write a single 1 at
buffer column `base` when in range.  Here `base` is the buffer column of
world position 0. -/

/-- The write loop of `compute.rs` over the characters of the initial state,
starting at character index `i`. -/
def writeChars (base : Int) : Nat → List Char → List Nat → List Nat
  | _, [], row => row
  | i, ch :: rest, row =>
      writeChars base (i + 1) rest
        (if 0 ≤ base + (i : Int) ∧ base + (i : Int) < (row.length : Int) then
          row.set (base + (i : Int)).toNat (charBit ch)
        else row)

/-- Row 0 of a simulation buffer of width `sw` whose column `base` holds
world position 0 (`compute.rs`, initial-row construction). -/
def buildInitialRow (sw : Nat) (base : Int) (state : Option (List Char)) : List Nat :=
  match state with
  | some s => writeChars base 0 s (List.replicate sw 0)
  | none =>
      if 0 ≤ base ∧ base < (sw : Int) then (List.replicate sw 0).set base.toNat 1
      else List.replicate sw 0

theorem writeChars_length (base : Int) (i : Nat) (s : List Char) (row : List Nat) :
    (writeChars base i s row).length = row.length := by
  induction s generalizing i row with
  | nil => rfl
  | cons ch rest ih =>
      rw [writeChars, ih]
      split <;> simp

theorem getD_set_self (l : List Nat) (p : Nat) (v : Nat) (hp : p < l.length) :
    (l.set p v).getD p 0 = v := by
  simp [List.getD_eq_getElem?_getD, List.getElem?_set, hp]

theorem getD_set_other (l : List Nat) (p j : Nat) (v : Nat) (h : p ≠ j) :
    (l.set p v).getD j 0 = l.getD j 0 := by
  simp [List.getD_eq_getElem?_getD, List.getElem?_set, h]

theorem getD_replicate_zero (n j : Nat) : (List.replicate n (0 : Nat)).getD j 0 = 0 := by
  rcases lt_or_ge j n with h | h
  · simp [List.getD_eq_getElem?_getD, List.getElem?_replicate, h]
  · have hlen : (List.replicate n (0 : Nat)).length ≤ j := by simpa using h
    rw [List.getD_eq_getElem?_getD, List.getElem?_eq_none hlen]
    rfl

theorem getD_writeChars (base : Int) (s : List Char) :
    ∀ (i : Nat) (row : List Nat) (j : Nat), j < row.length →
      (writeChars base i s row).getD j 0 =
        if base + (i : Int) ≤ (j : Int) ∧ (j : Int) < base + (i : Int) + (s.length : Int) then
          charBit (s.getD ((j : Int) - (base + (i : Int))).toNat '0')
        else row.getD j 0 := by
  induction s with
  | nil =>
      intro i row j hj
      rw [writeChars, if_neg (by push_cast [List.length_nil]; omega)]
  | cons ch rest ih =>
      intro i row j hj
      have hlc : (ch :: rest).length = rest.length + 1 := rfl
      rw [writeChars]
      set row' :=
        (if 0 ≤ base + (i : Int) ∧ base + (i : Int) < (row.length : Int) then
          row.set (base + (i : Int)).toNat (charBit ch)
        else row) with hrow'
      have hlen : row'.length = row.length := by
        rw [hrow']; split <;> simp
      rw [ih (i + 1) row' j (by rw [hlen]; exact hj)]
      by_cases hlo : base + (i : Int) + 1 ≤ (j : Int)
      · by_cases hhi : (j : Int) < base + (i : Int) + 1 + (rest.length : Int)
        · rw [if_pos ⟨by push_cast; omega, by push_cast; omega⟩,
            if_pos ⟨by push_cast; omega, by push_cast; omega⟩]
          have hk : ((j : Int) - (base + (i : Int))).toNat
              = ((j : Int) - (base + ((i : Nat) + 1 : Nat))).toNat + 1 := by
            push_cast; omega
          rw [hk]
          simp [List.getD_cons_succ]
        · rw [if_neg (by push_cast; omega), if_neg (by push_cast; omega), hrow']
          split
          · next hin =>
              apply getD_set_other
              omega
          · rfl
      · rw [if_neg (by push_cast; omega)]
        by_cases hj0 : (j : Int) = base + (i : Int)
        · have hin : 0 ≤ base + (i : Int) ∧ base + (i : Int) < (row.length : Int) := by
            constructor <;> omega
          rw [if_pos (by constructor <;> (push_cast; omega))]
          have hk : ((j : Int) - (base + (i : Int))).toNat = 0 := by omega
          rw [hk, hrow', if_pos hin]
          have hp : (base + (i : Int)).toNat = j := by omega
          rw [hp]
          simpa using getD_set_self row j (charBit ch) hj
        · rw [if_neg (by push_cast; omega), hrow']
          split
          · exact getD_set_other _ _ _ _ (by omega)
          · rfl

/-- The generation-0 row built by `compute.rs` agrees, on every buffer column,
with the infinite world's generation 0 under the world/buffer correspondence
`world x ↦ buffer column x + base`. -/
theorem buildInitialRow_world (sw : Nat) (base : Int) (state : Option (List Char))
    (j : Nat) (hj : j < sw) :
    (buildInitialRow sw base state).getD j 0 = worldInit state ((j : Int) - base) := by
  match state with
  | none =>
      simp only [buildInitialRow, worldInit]
      by_cases hb : (j : Int) = base
      · have hin : 0 ≤ base ∧ base < (sw : Int) := by constructor <;> omega
        rw [if_pos hin, if_pos (show (j : Int) - base = 0 by omega)]
        have hp : base.toNat = j := by omega
        rw [hp]
        exact getD_set_self _ _ _ (by simpa using hj)
      · rw [if_neg (show ¬((j : Int) - base = 0) by omega)]
        split
        · next hin =>
            rw [getD_set_other _ _ _ _ (by omega)]
            exact getD_replicate_zero sw j
        · exact getD_replicate_zero sw j
  | some s =>
      simp only [buildInitialRow, worldInit]
      rw [getD_writeChars base s 0 (List.replicate sw 0) j (by simpa using hj)]
      by_cases hlo : base ≤ (j : Int)
      · by_cases hhi : (j : Int) < base + (s.length : Int)
        · rw [if_pos ⟨by push_cast; omega, by push_cast; omega⟩,
            if_pos ⟨by omega, by omega⟩]
          norm_num
        · rw [if_neg (by push_cast; omega), if_neg (by omega)]
          exact getD_replicate_zero sw j
      · rw [if_neg (by push_cast; omega), if_neg (by omega)]
        exact getD_replicate_zero sw j

/-! ## Light-cone correctness of finite padded simulation -/

theorem getD_range_map (n : Nat) (f : Nat → Nat) (p : Nat) (hp : p < n) :
    ((List.range n).map f).getD p 0 = f p := by
  simp [List.getD_eq_getElem?_getD, List.getElem?_map, List.getElem?_range hp]

/-- Any buffer cell whose backward light cone stays inside the buffer equals
the corresponding cell of the infinite world, provided row 0 of the buffer
agrees with row 0 of the world on every buffer column. -/
theorem simRows_eq_worldRow (rule : Nat) (row0 : List Nat) (w0 : Int → Nat) (base : Int)
    (h0 : ∀ p : Nat, p < row0.length → row0.getD p 0 = w0 ((p : Int) - base)) :
    ∀ (g p : Nat), g ≤ p → p + g < row0.length →
      (simRows rule row0 g).getD p 0 = worldRow rule w0 g ((p : Int) - base) := by
  intro g
  induction g with
  | zero =>
      intro p _ hp
      exact h0 p (by omega)
  | succ g ih =>
      intro p hgp hpg
      have hlen := simRows_length rule row0 g
      show (stepRow rule (simRows rule row0 g)).getD p 0 = _
      rw [stepRow, hlen, getD_range_map _ _ p (by omega)]
      rw [leftNeighbor, if_neg (show ¬ p = 0 by omega)]
      rw [ih (p - 1) (by omega) (by omega), ih p (by omega) (by omega),
        ih (p + 1) (by omega) (by omega)]
      show _ = worldStep rule (worldRow rule w0 g) ((p : Int) - base)
      rw [worldStep]
      have e1 : ((p - 1 : Nat) : Int) - base = ((p : Int) - base) - 1 := by omega
      have e2 : ((p + 1 : Nat) : Int) - base = ((p : Int) - base) + 1 := by push_cast; ring
      rw [e1, e2]

/-! ## Tile producer (`compute_tile` in `compute.rs`) -/

/-- Light-cone padding chosen by the producer: `generation_end.max(0)` where
`generation_end = tile_y * tile_size + tile_size`. -/
def tilePadding (tile_y : Int) (T : Nat) : Nat := (max (tile_y * T + T) 0).toNat

/-- Simulation-buffer width for a tile: `tile_width + 2 * padding`. -/
def tileSimWidth (tile_y : Int) (T : Nat) : Nat := T + 2 * tilePadding tile_y T

/-- Number of kernel iterations the producer dispatches:
`generation_end.max(0)` (it simulates from generation 0). -/
def tileTotalGenerations (tile_y : Int) (T : Nat) : Nat := (max (tile_y * T + T) 0).toNat

/-- Buffer column of world position 0: `padding - tile_start_x`. -/
def tileBaseOffset (tile_x tile_y : Int) (T : Nat) : Int :=
  (tilePadding tile_y T : Int) - tile_x * T

/-- First simulation row the producer slices into the tile buffer:
`(tile_y * tile_height).max(0)`. -/
def tileGenOffset (tile_y : Int) (T : Nat) : Nat := (max (tile_y * T) 0).toNat

/-- Generation-0 row of a tile's simulation buffer. -/
def tileInitialRow (tile_x tile_y : Int) (T : Nat) (state : Option (List Char)) : List Nat :=
  buildInitialRow (tileSimWidth tile_y T) (tileBaseOffset tile_x tile_y T) state

/-- A produced tile, as stored in the cache by `run_ca_with_cache`
(`compute.rs`): a device buffer of `tile_size` rows of `simulated_width`
words, modelled as a flat index map. -/
structure TileM where
  buffer : Nat → Nat
  simulated_width : Nat
  padding_left : Nat

/-- The tile producer: simulate from generation 0 with light-cone padding and
slice rows `[tile_gen_offset, tile_gen_offset + tile_size)` out of the
simulation buffer. -/
def computeTile (rule : Nat) (tile_x tile_y : Int) (T : Nat)
    (state : Option (List Char)) : TileM :=
  { buffer := fun idx =>
      let r := idx / tileSimWidth tile_y T
      let c := idx % tileSimWidth tile_y T
      if r < T then
        (simRows rule (tileInitialRow tile_x tile_y T state)
          (tileGenOffset tile_y T + r)).getD c 0
      else 0,
    simulated_width := tileSimWidth tile_y T,
    padding_left := tilePadding tile_y T }

/-! ## Monolithic computation (`run_ca` in `compute.rs`) -/

/-- Result of a computation pass: the viewport buffer handed to the renderer,
as a flat index map plus its dimensions. -/
structure CaResultM where
  buffer : Nat → Nat
  simulated_width : Nat
  visible_width : Nat
  height : Nat
  padding_left : Nat

/-- `run_ca`: simulate all generations from 0 through
`start_generation + iterations` on one padded buffer and slice out rows
`[start_generation, start_generation + iterations]`. -/
def runCa (rule : Nat) (start_generation iterations visible_width : Nat)
    (horizontal_offset : Int) (state : Option (List Char)) : CaResultM :=
  { buffer := fun idx =>
      let padding := start_generation + iterations
      let simw := visible_width + 2 * padding
      let r := idx / simw
      let c := idx % simw
      if r < iterations + 1 then
        (simRows rule (buildInitialRow simw ((padding : Int) - horizontal_offset) state)
          (start_generation + r)).getD c 0
      else 0,
    simulated_width := visible_width + 2 * (start_generation + iterations),
    visible_width := visible_width,
    height := iterations + 1,
    padding_left := start_generation + iterations }

theorem flat_div (r c w : Nat) (hc : c < w) : (r * w + c) / w = r := by
  rw [mul_comm, Nat.mul_add_div (by omega), Nat.div_eq_of_lt hc, Nat.add_zero]

theorem flat_mod (r c w : Nat) (hc : c < w) : (r * w + c) % w = c := by
  rw [mul_comm, Nat.mul_add_mod, Nat.mod_eq_of_lt hc]

/-- C6: for every tile with `tile_y ≥ 0` and tile size `T`, the producer
chooses `padding = (tile_y + 1) * T` (the tile's generation_end), allocates a
simulation buffer of width `T + 2 * padding`, dispatches the kernel for all
`(tile_y + 1) * T` generations starting from generation 0, and the sliced
tile buffer row `r` holds simulation row `tile_y * T + r` (the generations
below `tile_y * T` are computed but discarded by the slice). -/
theorem computeTile_padding_iteration_slice (rule : Nat) (tile_x tile_y : Int) (T : Nat)
    (state : Option (List Char)) (hy : 0 ≤ tile_y) :
    (computeTile rule tile_x tile_y T state).padding_left = (tile_y.toNat + 1) * T ∧
    (computeTile rule tile_x tile_y T state).simulated_width
      = T + 2 * ((tile_y.toNat + 1) * T) ∧
    tileTotalGenerations tile_y T = (tile_y.toNat + 1) * T ∧
    ∀ r : Nat, r < T → ∀ c : Nat, c < tileSimWidth tile_y T →
      (computeTile rule tile_x tile_y T state).buffer (r * tileSimWidth tile_y T + c) =
        (simRows rule (tileInitialRow tile_x tile_y T state) (tile_y.toNat * T + r)).getD c 0 := by
  have hcast : tile_y * (T : Int) = ((tile_y.toNat * T : Nat) : Int) := by
    push_cast [Int.toNat_of_nonneg hy]; ring
  have hdistrib : (tile_y.toNat + 1) * T = tile_y.toNat * T + T := by ring
  have hpad : tilePadding tile_y T = (tile_y.toNat + 1) * T := by
    rw [tilePadding, hcast]
    omega
  have hoff : tileGenOffset tile_y T = tile_y.toNat * T := by
    rw [tileGenOffset, hcast]
    omega
  refine ⟨hpad, ?_, ?_, ?_⟩
  · show tileSimWidth tile_y T = _
    rw [tileSimWidth, hpad]
  · rw [tileTotalGenerations, hcast]
    omega
  · intro r hr c hc
    show (if (r * tileSimWidth tile_y T + c) / tileSimWidth tile_y T < T then _ else 0) = _
    rw [flat_div r c _ hc, flat_mod r c _ hc, if_pos hr, hoff]

/-- C7: row 0 of the producer's simulation buffer: with the default initial
state, buffer column `base_offset = padding - tile_x * T` is 1 (when in
range) and every other column is 0; with an explicit string, character `i`
is written as a bit at column `base_offset + i` whenever that column is in
`[0, simulated_width)`, and all remaining columns are 0. -/
theorem tile_initial_row_spec (tile_x tile_y : Int) (T : Nat) (state : Option (List Char))
    (j : Nat) (hj : j < tileSimWidth tile_y T) :
    (tileInitialRow tile_x tile_y T state).getD j 0 =
      match state with
      | none => if (j : Int) = tileBaseOffset tile_x tile_y T then 1 else 0
      | some s =>
          if tileBaseOffset tile_x tile_y T ≤ (j : Int) ∧
              (j : Int) < tileBaseOffset tile_x tile_y T + (s.length : Int) then
            charBit (s.getD ((j : Int) - tileBaseOffset tile_x tile_y T).toNat '0')
          else 0 := by
  rw [tileInitialRow, buildInitialRow_world _ _ _ j hj]
  match state with
  | none =>
      show (if (j : Int) - tileBaseOffset tile_x tile_y T = 0 then 1 else 0)
        = (if (j : Int) = tileBaseOffset tile_x tile_y T then 1 else 0)
      by_cases hb : (j : Int) = tileBaseOffset tile_x tile_y T
      · rw [if_pos (by omega), if_pos hb]
      · rw [if_neg (by omega), if_neg hb]
  | some s =>
      show (if 0 ≤ (j : Int) - tileBaseOffset tile_x tile_y T ∧
          (j : Int) - tileBaseOffset tile_x tile_y T < (s.length : Int) then
          charBit (s.getD ((j : Int) - tileBaseOffset tile_x tile_y T).toNat '0') else 0)
        = (if tileBaseOffset tile_x tile_y T ≤ (j : Int) ∧
            (j : Int) < tileBaseOffset tile_x tile_y T + (s.length : Int) then
          charBit (s.getD ((j : Int) - tileBaseOffset tile_x tile_y T).toNat '0') else 0)
      by_cases hb : tileBaseOffset tile_x tile_y T ≤ (j : Int) ∧
          (j : Int) < tileBaseOffset tile_x tile_y T + (s.length : Int)
      · rw [if_pos (by omega), if_pos hb]
      · rw [if_neg (by omega), if_neg hb]

theorem tile_initial_row_spec_witness :
    (tileInitialRow 0 0 2 (some ['1', '0', '1'])).getD 2 0 =
      (if tileBaseOffset 0 0 2 ≤ (2 : Int) ∧
          (2 : Int) < tileBaseOffset 0 0 2 + ((['1', '0', '1'] : List Char).length : Int) then
        charBit ((['1', '0', '1'] : List Char).getD
          ((2 : Int) - tileBaseOffset 0 0 2).toNat '0')
      else 0) :=
  tile_initial_row_spec 0 0 2 (some ['1', '0', '1']) 2 (by decide)

theorem computeTile_padding_iteration_slice_witness :
    (computeTile 30 0 1 2 none).padding_left = ((1 : Int).toNat + 1) * 2 ∧
    (computeTile 30 0 1 2 none).buffer (1 * tileSimWidth 1 2 + 3) =
      (simRows 30 (tileInitialRow 0 1 2 none) ((1 : Int).toNat * 2 + 1)).getD 3 0 :=
  ⟨(computeTile_padding_iteration_slice 30 0 1 2 none (by decide)).1,
    (computeTile_padding_iteration_slice 30 0 1 2 none (by decide)).2.2.2
      1 (by decide) 3 (by decide)⟩

/-! ## LRU tile cache (`cache.rs`) -/

/-- Cache key exactly as defined in `cache.rs` (its Option A design): the
rule, initial-state digest and generation range take part in derived
equality; the horizontal range is deliberately not stored. -/
structure TileKey where
  rule : Nat
  initial_state_hash : Nat
  generation_start : Nat
  generation_end : Nat
deriving DecidableEq

/-- Modelled from the spec: the stable 64-bit digest of the optional initial
state (`DefaultHasher` in `cache.rs` is std-library code outside `src/`).
Only equality of digests of equal inputs matters to the claims; the default
case hashes distinctly from any explicit string, as the spec requires. -/
def hashInitialState (state : Option (List Char)) : Nat :=
  match state with
  | none => 0
  | some s => 1 + s.foldl (fun h c => (h * 256 + c.toNat) % 2 ^ 64) 0

/-- `TileKey::new` from `cache.rs`: the two horizontal arguments are ignored. -/
def TileKey.new (rule : Nat) (state : Option (List Char))
    (generation_start generation_end : Nat)
    (_horizontal_start _horizontal_end : Int) : TileKey :=
  { rule := rule, initial_state_hash := hashInitialState state,
    generation_start := generation_start, generation_end := generation_end }

/-- The cached tile record of `cache.rs`; the `wgpu::Buffer` handle is
modelled as an opaque numeric identifier. -/
structure TileData where
  buffer_id : Nat
  generation_start : Nat
  generation_end : Nat
  horizontal_start : Int
  horizontal_end : Int
  simulated_width : Nat
  padding_left : Nat
deriving DecidableEq

/-- Association-list model of the `HashMap<TileKey, Tile>` in `cache.rs`. -/
def lookupA {κ τ : Type} [DecidableEq κ] : List (κ × τ) → κ → Option τ
  | [], _ => none
  | e :: es, k => if e.1 = k then some e.2 else lookupA es k

/-- `HashMap::remove`. -/
def removeA {κ τ : Type} [DecidableEq κ] : List (κ × τ) → κ → List (κ × τ)
  | [], _ => []
  | e :: es, k => if e.1 = k then removeA es k else e :: removeA es k

/-- `HashMap::insert` (replaces any previous entry for the key). -/
def insertA {κ τ : Type} [DecidableEq κ] (m : List (κ × τ)) (k : κ) (v : τ) :
    List (κ × τ) :=
  (k, v) :: removeA m k

/-- `VecDeque::retain(|x| x != k)` on the LRU queue. -/
def removeKey {κ : Type} [DecidableEq κ] : List κ → κ → List κ
  | [], _ => []
  | x :: xs, k => if x = k then removeKey xs k else x :: removeKey xs k

/-- The LRU tile cache of `cache.rs`, generic in the key and tile types
(`cache.rs` instantiates it at `TileKey`/`Tile`, while `compute.rs` and
`render.rs` expect grid keys; the eviction and accounting logic is
identical).  `lru_queue` lists the most recently used key first, mirroring
the `VecDeque` front. -/
structure TileCache (κ τ : Type) where
  max_tiles : Nat
  tiles : List (κ × τ)
  lru_queue : List κ
  hits : Nat
  misses : Nat

/-- `TileCache::new`. -/
def TileCache.new {κ τ : Type} (max_tiles : Nat) : TileCache κ τ :=
  { max_tiles := max_tiles, tiles := [], lru_queue := [], hits := 0, misses := 0 }

/-- `TileCache::touch`: move a key to the front of the LRU queue. -/
def TileCache.touch {κ τ : Type} [DecidableEq κ] (c : TileCache κ τ) (k : κ) :
    TileCache κ τ :=
  { c with lru_queue := k :: removeKey c.lru_queue k }

/-- `TileCache::get`: on presence touch the key and count a hit, otherwise
count a miss. -/
def TileCache.get {κ τ : Type} [DecidableEq κ] (c : TileCache κ τ) (k : κ) :
    Option τ × TileCache κ τ :=
  if (lookupA c.tiles k).isSome then
    ((lookupA (c.touch k).tiles k), { c.touch k with hits := (c.touch k).hits + 1 })
  else
    (none, { c with misses := c.misses + 1 })

/-- The `while tiles.len() >= max_tiles && !lru_queue.is_empty()` eviction
loop of `TileCache::insert`, processed on the reversed queue (head = back of
the deque, i.e. the least recently used key). -/
def evictAux {κ τ : Type} [DecidableEq κ] (max_tiles : Nat) :
    List (κ × τ) → List κ → List (κ × τ) × List κ
  | tiles, [] => (tiles, [])
  | tiles, b :: rest =>
      if max_tiles ≤ tiles.length then evictAux max_tiles (removeA tiles b) rest
      else (tiles, b :: rest)

/-- `TileCache::insert`: drop the key's previous recency entry if present,
evict least-recently-used entries while at capacity, then insert the new
tile as the most recent. -/
def TileCache.insert {κ τ : Type} [DecidableEq κ] (c : TileCache κ τ) (k : κ) (v : τ) :
    TileCache κ τ :=
  let q0 := if (lookupA c.tiles k).isSome then removeKey c.lru_queue k else c.lru_queue
  let p := evictAux c.max_tiles c.tiles q0.reverse
  { c with tiles := insertA p.1 k v, lru_queue := k :: p.2.reverse }

/-- `TileCache::clear`. -/
def TileCache.clear {κ τ : Type} (c : TileCache κ τ) : TileCache κ τ :=
  { c with tiles := [], lru_queue := [], hits := 0, misses := 0 }

/-- One cache operation as issued by a caller (a `get` discards its return
value here; only the cache state evolution matters for the invariants). -/
inductive CacheOp (κ τ : Type) where
  | get (k : κ)
  | insert (k : κ) (v : τ)

/-- Apply one operation to the cache. -/
def applyOp {κ τ : Type} [DecidableEq κ] (c : TileCache κ τ) :
    CacheOp κ τ → TileCache κ τ
  | .get k => (c.get k).2
  | .insert k v => c.insert k v

/-- Run a sequence of operations against a freshly constructed cache. -/
def runOps {κ τ : Type} [DecidableEq κ] (cap : Nat) (ops : List (CacheOp κ τ)) :
    TileCache κ τ :=
  ops.foldl applyOp (TileCache.new cap)

/-- Distinct demonstration keys and tiles for concrete cache scenarios. -/
def demoKey (i : Nat) : TileKey :=
  { rule := 30, initial_state_hash := hashInitialState none,
    generation_start := i * 256, generation_end := i * 256 + 256 }

def demoTile (i : Nat) : TileData :=
  { buffer_id := i, generation_start := i * 256, generation_end := i * 256 + 256,
    horizontal_start := 0, horizontal_end := 256,
    simulated_width := 256, padding_left := 0 }

/-- C1 (code evaluation): `TileKey::new` in `cache.rs` ignores its horizontal
arguments, so the tiles at grid positions `(0, 0)` and `(1, 0)` — same
`tile_y`, distinct `tile_x` — receive the *same* cache key, contradicting
the spec's `(rule, digest, tile_x, tile_y)` key that `compute.rs` and
`render.rs` are written against. -/
theorem tileKey_new_ignores_tile_x :
    TileKey.new 30 none 0 256 0 256 = TileKey.new 30 none 0 256 256 512 := by
  rfl

/-- C4 (counterexample): inserting into a cache constructed with capacity 0
is not a no-op — the eviction loop first empties the cache and the new entry
is then inserted unconditionally, leaving one entry, which also exceeds the
capacity bound `|entries| ≤ 0`. -/
theorem tileCache_capacity0_insert_not_noop :
    (((TileCache.new 0 : TileCache TileKey TileData).insert (demoKey 1)
      (demoTile 1)).tiles).length = 1 := by
  rfl

/-! ## Basic lemmas about the cache primitives -/

theorem lookupA_removeA {κ τ : Type} [DecidableEq κ] (m : List (κ × τ)) (k k' : κ) :
    lookupA (removeA m k) k' = if k' = k then none else lookupA m k' := by
  induction m with
  | nil => simp [removeA, lookupA]
  | cons e es ih =>
      rw [removeA]
      by_cases he : e.1 = k
      · rw [if_pos he, ih]
        by_cases hk : k' = k
        · rw [if_pos hk, if_pos hk]
        · rw [if_neg hk, if_neg hk, lookupA, if_neg (by rw [he]; exact fun h => hk h.symm)]
      · rw [if_neg he, lookupA, lookupA]
        by_cases he' : e.1 = k'
        · rw [if_pos he', if_pos he',
            if_neg (fun h : k' = k => he (show e.1 = k from h ▸ he'))]
        · rw [if_neg he', if_neg he', ih]

theorem removeA_of_lookup_none {κ τ : Type} [DecidableEq κ] (m : List (κ × τ)) (k : κ)
    (h : lookupA m k = none) : removeA m k = m := by
  induction m with
  | nil => rfl
  | cons e es ih =>
      rw [lookupA] at h
      by_cases he : e.1 = k
      · rw [if_pos he] at h; exact absurd h (by simp)
      · rw [if_neg he] at h
        rw [removeA, if_neg he, ih h]

theorem lookupA_insertA {κ τ : Type} [DecidableEq κ] (m : List (κ × τ)) (k k' : κ) (v : τ) :
    lookupA (insertA m k v) k' = if k' = k then some v else lookupA m k' := by
  rw [insertA, lookupA]
  by_cases hk : k = k'
  · rw [if_pos hk, if_pos hk.symm]
  · rw [if_neg hk, if_neg (fun h => hk h.symm), lookupA_removeA,
      if_neg (fun h => hk h.symm)]

theorem lookupA_isSome_iff_mem {κ τ : Type} [DecidableEq κ] (m : List (κ × τ)) (k : κ) :
    (lookupA m k).isSome = true ↔ k ∈ m.map Prod.fst := by
  induction m with
  | nil => simp [lookupA]
  | cons e es ih =>
      rw [lookupA]
      by_cases he : e.1 = k
      · simp [he]
      · rw [if_neg he]
        simp only [List.map_cons, List.mem_cons, ih]
        exact ⟨fun h => Or.inr h, fun h => h.elim (fun h => absurd h.symm he) id⟩

theorem removeA_sublist {κ τ : Type} [DecidableEq κ] (m : List (κ × τ)) (k : κ) :
    (removeA m k).Sublist m := by
  induction m with
  | nil => simp [removeA]
  | cons e es ih =>
      rw [removeA]
      by_cases he : e.1 = k
      · rw [if_pos he]; exact ih.cons e
      · rw [if_neg he]; exact ih.cons₂ e

theorem keys_removeA_nodup {κ τ : Type} [DecidableEq κ] (m : List (κ × τ)) (k : κ)
    (h : (m.map Prod.fst).Nodup) : ((removeA m k).map Prod.fst).Nodup :=
  List.Nodup.sublist (List.Sublist.map Prod.fst (removeA_sublist m k)) h

theorem length_removeA_present {κ τ : Type} [DecidableEq κ] (m : List (κ × τ)) (k : κ)
    (hnd : (m.map Prod.fst).Nodup) (h : (lookupA m k).isSome = true) :
    (removeA m k).length + 1 = m.length := by
  induction m with
  | nil => simp [lookupA] at h
  | cons e es ih =>
      simp only [List.map_cons, List.nodup_cons] at hnd
      rw [lookupA] at h
      by_cases he : e.1 = k
      · rw [removeA, if_pos he]
        have hnone : lookupA es k = none := by
          rcases hres : lookupA es k with _ | v
          · rfl
          · exfalso
            exact hnd.1 (he ▸ (lookupA_isSome_iff_mem es k).mp (by rw [hres]; rfl))
        rw [removeA_of_lookup_none es k hnone, List.length_cons]
      · rw [if_neg he] at h
        rw [removeA, if_neg he, List.length_cons, List.length_cons, ih hnd.2 h]

theorem mem_removeKey {κ : Type} [DecidableEq κ] (q : List κ) (k k' : κ) :
    k' ∈ removeKey q k ↔ k' ∈ q ∧ k' ≠ k := by
  induction q with
  | nil => simp [removeKey]
  | cons x xs ih =>
      rw [removeKey]
      by_cases hx : x = k
      · subst hx
        rw [if_pos rfl, ih]
        simp only [List.mem_cons]
        constructor
        · exact fun h => ⟨Or.inr h.1, h.2⟩
        · rintro ⟨h1 | h1, h2⟩
          · exact absurd h1 h2
          · exact ⟨h1, h2⟩
      · rw [if_neg hx]
        simp only [List.mem_cons, ih]
        constructor
        · rintro (h | h)
          · subst h; exact ⟨Or.inl rfl, hx⟩
          · exact ⟨Or.inr h.1, h.2⟩
        · rintro ⟨h1 | h1, h2⟩
          · exact Or.inl h1
          · exact Or.inr ⟨h1, h2⟩

theorem removeKey_of_not_mem {κ : Type} [DecidableEq κ] (q : List κ) (k : κ)
    (h : k ∉ q) : removeKey q k = q := by
  induction q with
  | nil => rfl
  | cons x xs ih =>
      rw [removeKey, if_neg (fun he => h (by rw [← he]; exact List.mem_cons_self x xs)),
        ih (fun hm => h (List.mem_cons_of_mem x hm))]

theorem removeKey_nodup {κ : Type} [DecidableEq κ] (q : List κ) (k : κ)
    (h : q.Nodup) : (removeKey q k).Nodup := by
  induction q with
  | nil => simp [removeKey]
  | cons x xs ih =>
      rw [List.nodup_cons] at h
      by_cases hx : x = k
      · rw [removeKey, if_pos hx]; exact ih h.2
      · rw [removeKey, if_neg hx, List.nodup_cons]
        exact ⟨fun hm => h.1 (mem_removeKey xs k x |>.mp hm).1, ih h.2⟩

theorem length_removeKey_nodup {κ : Type} [DecidableEq κ] (q : List κ) (k : κ)
    (hnd : q.Nodup) (h : k ∈ q) : (removeKey q k).length + 1 = q.length := by
  induction q with
  | nil => simp at h
  | cons x xs ih =>
      rw [List.nodup_cons] at hnd
      by_cases hx : x = k
      · rw [removeKey, if_pos hx, removeKey_of_not_mem xs k (hx ▸ hnd.1), List.length_cons]
      · rcases List.mem_cons.mp h with he | hm
        · exact absurd he.symm hx
        · rw [removeKey, if_neg hx, List.length_cons, List.length_cons, ih hnd.2 hm]

theorem evictAux_no_evict {κ τ : Type} [DecidableEq κ] (max_tiles : Nat)
    (tiles : List (κ × τ)) (rq : List κ) (h : tiles.length < max_tiles) :
    evictAux max_tiles tiles rq = (tiles, rq) := by
  cases rq with
  | nil => rfl
  | cons b rest => rw [evictAux, if_neg (by omega)]

/-- Exact effect of `TileCache::insert` for a fresh key on a cache strictly
below capacity: no eviction, the entry is prepended and the key becomes the
most recently used. -/
theorem insert_spec_fresh {κ τ : Type} [DecidableEq κ] (c : TileCache κ τ) (k : κ) (v : τ)
    (hfresh : lookupA c.tiles k = none) (hcap : c.tiles.length < c.max_tiles) :
    c.insert k v = { c with tiles := (k, v) :: c.tiles, lru_queue := k :: c.lru_queue } := by
  rw [TileCache.insert]
  have hq0 : (if (lookupA c.tiles k).isSome then removeKey c.lru_queue k else c.lru_queue)
      = c.lru_queue := by
    rw [hfresh]; rfl
  rw [hq0, evictAux_no_evict _ _ _ hcap]
  rw [insertA, removeA_of_lookup_none _ _ hfresh, List.reverse_reverse]

/-- `TileCache::get` never changes the tile map, and returns exactly the
map's entry for the key. -/
theorem get_spec {κ τ : Type} [DecidableEq κ] (c : TileCache κ τ) (k : κ) :
    (c.get k).1 = lookupA c.tiles k ∧ ((c.get k).2).tiles = c.tiles ∧
    ((c.get k).2).max_tiles = c.max_tiles := by
  rw [TileCache.get]
  rcases hres : lookupA c.tiles k with _ | v
  · rw [if_neg (by simp)]
    exact ⟨rfl, rfl, rfl⟩
  · rw [if_pos (by simp)]
    exact ⟨hres, rfl, rfl⟩

/-- Full characterisation of the eviction loop: a prefix of the reversed
queue (the oldest keys) is removed from the tile map, and the loop stops as
soon as the map is strictly below capacity or the queue is exhausted. -/
theorem evictAux_spec {κ τ : Type} [DecidableEq κ] (max_tiles : Nat) :
    ∀ (rq : List κ) (tiles : List (κ × τ)),
      (tiles.map Prod.fst).Nodup → rq.Nodup →
      (∀ b ∈ rq, (lookupA tiles b).isSome = true) →
      ∃ j, j ≤ rq.length ∧
        (evictAux max_tiles tiles rq).2 = rq.drop j ∧
        (∀ k', lookupA (evictAux max_tiles tiles rq).1 k' =
          if k' ∈ rq.take j then none else lookupA tiles k') ∧
        (evictAux max_tiles tiles rq).1.length + j = tiles.length ∧
        ((evictAux max_tiles tiles rq).1.length < max_tiles ∨ j = rq.length) ∧
        ((evictAux max_tiles tiles rq).1.map Prod.fst).Nodup := by
  intro rq
  induction rq with
  | nil =>
      intro tiles hnd _ _
      refine ⟨0, Nat.le_refl 0, rfl, fun k' => by simp [evictAux], rfl, Or.inr rfl, ?_⟩
      show ((tiles, ([] : List κ)).1.map Prod.fst).Nodup
      exact hnd
  | cons b rest ih =>
      intro tiles hnd hrq hmem
      rw [List.nodup_cons] at hrq
      by_cases hcap : max_tiles ≤ tiles.length
      · have hstep : evictAux max_tiles tiles (b :: rest)
            = evictAux max_tiles (removeA tiles b) rest := by
          rw [evictAux, if_pos hcap]
        have hnd' : ((removeA tiles b).map Prod.fst).Nodup := keys_removeA_nodup _ _ hnd
        have hmem' : ∀ b' ∈ rest, (lookupA (removeA tiles b) b').isSome = true := by
          intro b' hb'
          rw [lookupA_removeA, if_neg (fun h => hrq.1 (by rw [← h]; exact hb'))]
          exact hmem b' (List.mem_cons_of_mem b hb')
        obtain ⟨j, hj, hdrop, hlook, hlenN, hexit, hndR⟩ := ih (removeA tiles b) hnd' hrq.2 hmem'
        have hblen : (removeA tiles b).length + 1 = tiles.length :=
          length_removeA_present tiles b hnd (hmem b (List.mem_cons_self b rest))
        refine ⟨j + 1, by simp only [List.length_cons]; omega, ?_, ?_, ?_, ?_, ?_⟩
        · rw [hstep, List.drop_succ_cons, hdrop]
        · intro k'
          rw [hstep, hlook k', List.take_succ_cons]
          by_cases hk : k' = b
          · subst hk
            rw [if_pos (List.mem_cons_self k' (rest.take j))]
            by_cases h1 : k' ∈ rest.take j
            · rw [if_pos h1]
            · rw [if_neg h1, lookupA_removeA, if_pos rfl]
          · by_cases h1 : k' ∈ rest.take j
            · rw [if_pos h1, if_pos (List.mem_cons_of_mem b h1)]
            · rw [if_neg h1, lookupA_removeA, if_neg hk,
                if_neg (fun h => (List.mem_cons.mp h).elim hk h1)]
        · rw [hstep]; omega
        · rcases hexit with h | h
          · exact Or.inl (by rw [hstep]; exact h)
          · exact Or.inr (by simp only [List.length_cons]; omega)
        · rw [hstep]; exact hndR
      · have hstep : evictAux max_tiles tiles (b :: rest) = (tiles, b :: rest) := by
          rw [evictAux, if_neg hcap]
        refine ⟨0, by omega, by rw [hstep]; rfl, fun k' => by rw [hstep]; simp,
          by rw [hstep]; rfl, Or.inl ?_, by rw [hstep]; exact hnd⟩
        rw [hstep]
        show tiles.length < max_tiles
        omega

/-- Structural invariant of the cache: the LRU queue holds exactly the
cached keys, once each, and the entry count matches the queue length. -/
def CacheInv {κ τ : Type} [DecidableEq κ] (c : TileCache κ τ) : Prop :=
  c.lru_queue.Nodup ∧ (c.tiles.map Prod.fst).Nodup ∧
  (∀ k, k ∈ c.lru_queue ↔ (lookupA c.tiles k).isSome = true) ∧
  c.tiles.length = c.lru_queue.length

theorem cacheInv_new {κ τ : Type} [DecidableEq κ] (cap : Nat) :
    CacheInv (TileCache.new cap : TileCache κ τ) := by
  refine ⟨List.nodup_nil, List.nodup_nil, fun k => ?_, rfl⟩
  show k ∈ ([] : List κ) ↔ (lookupA [] k).isSome = true
  simp [lookupA]

theorem get_snd_eq {κ τ : Type} [DecidableEq κ] (c : TileCache κ τ) (k : κ) :
    (c.get k).2 = if (lookupA c.tiles k).isSome then
      { c with lru_queue := k :: removeKey c.lru_queue k, hits := c.hits + 1 }
    else { c with misses := c.misses + 1 } := by
  rw [TileCache.get]
  rcases hres : lookupA c.tiles k with _ | v
  · rw [if_neg (by simp), if_neg (by simp)]
  · rw [if_pos (by simp), if_pos (by simp)]
    rfl

theorem get_preserves_inv {κ τ : Type} [DecidableEq κ] (c : TileCache κ τ) (k : κ)
    (h : CacheInv c) : CacheInv (c.get k).2 := by
  obtain ⟨hq, ht, hiff, hlen⟩ := h
  rw [get_snd_eq]
  rcases hres : lookupA c.tiles k with _ | v
  · rw [if_neg (by simp)]
    exact ⟨hq, ht, hiff, hlen⟩
  · rw [if_pos (by simp)]
    have hkin : k ∈ c.lru_queue := (hiff k).mpr (by rw [hres]; rfl)
    refine ⟨?_, ht, ?_, ?_⟩
    · show (k :: removeKey c.lru_queue k).Nodup
      rw [List.nodup_cons]
      exact ⟨fun hm => ((mem_removeKey _ _ _).mp hm).2 rfl, removeKey_nodup _ _ hq⟩
    · intro k''
      show k'' ∈ k :: removeKey c.lru_queue k ↔ (lookupA c.tiles k'').isSome = true
      rw [List.mem_cons, mem_removeKey]
      constructor
      · rintro (he | hm)
        · subst he; rw [hres]; rfl
        · exact (hiff k'').mp hm.1
      · intro hs
        by_cases hk : k'' = k
        · exact Or.inl hk
        · exact Or.inr ⟨(hiff k'').mpr hs, hk⟩
    · show c.tiles.length = (k :: removeKey c.lru_queue k).length
      rw [List.length_cons]
      have := length_removeKey_nodup c.lru_queue k hq hkin
      omega

theorem insert_preserves_inv {κ τ : Type} [DecidableEq κ] (c : TileCache κ τ) (k : κ) (v : τ)
    (h : CacheInv c) :
    CacheInv (c.insert k v) ∧ (c.insert k v).max_tiles = c.max_tiles ∧
    (c.insert k v).tiles.length ≤ max c.max_tiles 1 := by
  obtain ⟨hq, ht, hiff, hlen⟩ := h
  set q0 := (if (lookupA c.tiles k).isSome then removeKey c.lru_queue k else c.lru_queue)
    with hq0def
  have hq0nd : q0.Nodup := by
    rw [hq0def]; split
    · exact removeKey_nodup _ _ hq
    · exact hq
  have hq0k : k ∉ q0 := by
    rw [hq0def]; split
    · next hp => exact fun hm => ((mem_removeKey _ _ _).mp hm).2 rfl
    · next hp => exact fun hm => hp (by rw [(hiff k).mp hm])
  have hq0mem : ∀ b ∈ q0, (lookupA c.tiles b).isSome = true := by
    intro b hb
    rw [hq0def] at hb
    apply (hiff b).mp
    revert hb
    split
    · exact fun hb => ((mem_removeKey _ _ _).mp hb).1
    · exact fun hb => hb
  have hq0mem' : ∀ b, b ∈ c.lru_queue → b ≠ k → b ∈ q0 := by
    intro b hb hbk
    rw [hq0def]; split
    · exact (mem_removeKey _ _ _).mpr ⟨hb, hbk⟩
    · exact hb
  have hcase : ((lookupA c.tiles k).isSome = true ∧ q0.length + 1 = c.lru_queue.length)
      ∨ (lookupA c.tiles k = none ∧ q0.length = c.lru_queue.length) := by
    rcases hres : lookupA c.tiles k with _ | w
    · refine Or.inr ⟨rfl, ?_⟩
      rw [hq0def, hres, if_neg (by simp)]
    · refine Or.inl ⟨rfl, ?_⟩
      rw [hq0def, hres, if_pos (by simp)]
      exact length_removeKey_nodup _ _ hq ((hiff k).mpr (by simp [hres]))
  have hrnd : q0.reverse.Nodup := by rw [List.nodup_reverse]; exact hq0nd
  obtain ⟨j, hj, hdrop, hlook, hlenN, hexit, hndR⟩ :=
    evictAux_spec c.max_tiles q0.reverse c.tiles ht hrnd
      (fun b hb => hq0mem b (List.mem_reverse.mp hb))
  set t := (evictAux c.max_tiles c.tiles q0.reverse).1 with htdef
  set q1 := (evictAux c.max_tiles c.tiles q0.reverse).2 with hq1def
  have hfin : c.insert k v = { c with tiles := insertA t k v, lru_queue := k :: q1.reverse } :=
    rfl
  have hknotrq : k ∉ q0.reverse := fun hm => hq0k (List.mem_reverse.mp hm)
  have hktake : k ∉ q0.reverse.take j := fun hm => hknotrq (List.mem_of_mem_take hm)
  have hlookk : lookupA t k = lookupA c.tiles k := by
    rw [hlook k, if_neg hktake]
  have hdisj : ∀ x, x ∈ q0.reverse.take j → x ∈ q0.reverse.drop j → False := by
    intro x htk hdr
    have hnd2 : (q0.reverse.take j ++ q0.reverse.drop j).Nodup := by
      rw [List.take_append_drop]; exact hrnd
    exact (List.nodup_append.mp hnd2).2.2 htk hdr
  have hq1nd : q1.Nodup := by
    rw [hdrop]
    exact List.Nodup.sublist (List.drop_sublist j q0.reverse) hrnd
  have hkq1 : k ∉ q1 := by
    rw [hdrop]
    exact fun hm => hknotrq (List.drop_subset j q0.reverse hm)
  have hkeyfresh : lookupA (removeA t k) k = none := by
    rw [lookupA_removeA, if_pos rfl]
  rw [hfin]
  refine ⟨⟨?_, ?_, ?_, ?_⟩, rfl, ?_⟩
  · show (k :: q1.reverse).Nodup
    rw [List.nodup_cons, List.mem_reverse]
    exact ⟨hkq1, by rw [List.nodup_reverse]; exact hq1nd⟩
  · show ((insertA t k v).map Prod.fst).Nodup
    rw [insertA, List.map_cons, List.nodup_cons]
    refine ⟨fun hm => ?_, keys_removeA_nodup _ _ hndR⟩
    have := (lookupA_isSome_iff_mem (removeA t k) k).mpr hm
    rw [hkeyfresh] at this
    exact absurd this (by simp)
  · intro k''
    show k'' ∈ k :: q1.reverse ↔ (lookupA (insertA t k v) k'').isSome = true
    rw [List.mem_cons, List.mem_reverse, lookupA_insertA]
    by_cases hk : k'' = k
    · rw [if_pos hk]
      simp [hk]
    · rw [if_neg hk, hlook k'']
      rw [hdrop, or_iff_right hk]
      by_cases htk : k'' ∈ q0.reverse.take j
      · rw [if_pos htk]
        simp only [Option.isSome_none, Bool.false_eq_true, iff_false]
        exact fun hdr => hdisj k'' htk hdr
      · rw [if_neg htk]
        constructor
        · intro hdr
          exact hq0mem k'' (List.mem_reverse.mp (List.drop_subset j q0.reverse hdr))
        · intro hs
          have hinq : k'' ∈ q0.reverse := by
            rw [List.mem_reverse]
            exact hq0mem' k'' ((hiff k'').mpr hs) hk
          rw [← List.take_append_drop j q0.reverse] at hinq
          rcases List.mem_append.mp hinq with hm | hm
          · exact absurd hm htk
          · exact hm
  · show (insertA t k v).length = (k :: q1.reverse).length
    rw [insertA, List.length_cons, List.length_cons, List.length_reverse, hdrop,
      List.length_drop, List.length_reverse]
    have hrql : q0.reverse.length = q0.length := List.length_reverse q0
    rcases hcase with ⟨hp, hql⟩ | ⟨hp, hql⟩
    · have hsome : (lookupA t k).isSome = true := by rw [hlookk]; exact hp
      have := length_removeA_present t k hndR hsome
      omega
    · have hnone : lookupA t k = none := by rw [hlookk]; exact hp
      rw [removeA_of_lookup_none t k hnone]
      omega
  · show (insertA t k v).length ≤ max c.max_tiles 1
    rw [insertA, List.length_cons]
    have hrql : q0.reverse.length = q0.length := List.length_reverse q0
    rcases hcase with ⟨hp, hql⟩ | ⟨hp, hql⟩
    · have hsome : (lookupA t k).isSome = true := by rw [hlookk]; exact hp
      have hra := length_removeA_present t k hndR hsome
      rcases hexit with he | he <;> omega
    · have hnone : lookupA t k = none := by rw [hlookk]; exact hp
      rw [removeA_of_lookup_none t k hnone]
      rcases hexit with he | he <;> omega

theorem foldl_ops_inv {κ τ : Type} [DecidableEq κ] (cap : Nat) (ops : List (CacheOp κ τ)) :
    ∀ c : TileCache κ τ, CacheInv c → c.max_tiles = cap → c.tiles.length ≤ max cap 1 →
      CacheInv (ops.foldl applyOp c) ∧ (ops.foldl applyOp c).max_tiles = cap ∧
      (ops.foldl applyOp c).tiles.length ≤ max cap 1 := by
  induction ops with
  | nil =>
      intro c h1 h2 h3
      exact ⟨h1, h2, h3⟩
  | cons op rest ih =>
      intro c h1 h2 h3
      rw [List.foldl_cons]
      rcases op with k | ⟨k, v⟩
      · refine ih _ (get_preserves_inv c k h1) ?_ ?_
        · show (c.get k).2.max_tiles = cap
          rw [(get_spec c k).2.2]; exact h2
        · show (c.get k).2.tiles.length ≤ max cap 1
          rw [(get_spec c k).2.1]; exact h3
      · obtain ⟨hi1, hi2, hi3⟩ := insert_preserves_inv c k v h1
        refine ih _ hi1 ?_ ?_
        · show (c.insert k v).max_tiles = cap
          rw [hi2]; exact h2
        · show (c.insert k v).tiles.length ≤ max cap 1
          rw [h2] at hi3; exact hi3

theorem insert_tiles_length_pos {κ τ : Type} [DecidableEq κ] (c : TileCache κ τ)
    (k : κ) (v : τ) : 0 < (c.insert k v).tiles.length := by
  show 0 < (insertA (evictAux c.max_tiles c.tiles
    ((if (lookupA c.tiles k).isSome then removeKey c.lru_queue k
      else c.lru_queue).reverse)).1 k v).length
  rw [insertA, List.length_cons]
  omega

/-- C4 (amended): for any capacity and any sequence of get/insert operations
starting from a fresh cache, the entry count never exceeds
`max(capacity, 1)`; with capacity ≥ 1 this is the claimed bound `capacity`,
but an insert into a capacity-0 cache is not a no-op: it first evicts
everything and then stores the new entry, leaving exactly one entry. -/
theorem tileCache_entry_bound (cap : Nat) (ops : List (CacheOp TileKey TileData)) :
    (runOps cap ops).tiles.length ≤ max cap 1 ∧
    (cap = 0 → ∀ (k : TileKey) (v : TileData),
      ((runOps cap ops).insert k v).tiles.length = 1) := by
  obtain ⟨h1, h2, h3⟩ := foldl_ops_inv cap ops (TileCache.new cap) (cacheInv_new cap) rfl
    (by show 0 ≤ max cap 1; omega)
  refine ⟨h3, fun hc k v => ?_⟩
  obtain ⟨_, _, hb⟩ := insert_preserves_inv (runOps cap ops) k v h1
  have h2r : (runOps cap ops).max_tiles = cap := h2
  rw [h2r] at hb
  have hge := insert_tiles_length_pos (runOps cap ops) k v
  omega

theorem tileCache_entry_bound_witness :
    (runOps 0 [CacheOp.insert (demoKey 1) (demoTile 1)]).tiles.length ≤ max 0 1 ∧
    ((runOps 0 [CacheOp.insert (demoKey 1) (demoTile 1)]).insert (demoKey 2)
      (demoTile 2)).tiles.length = 1 :=
  ⟨(tileCache_entry_bound 0 [CacheOp.insert (demoKey 1) (demoTile 1)]).1,
    (tileCache_entry_bound 0 [CacheOp.insert (demoKey 1) (demoTile 1)]).2 rfl
      (demoKey 2) (demoTile 2)⟩

/-! ## LRU eviction order (`cache.rs` insert/get/touch interplay) -/

/-- The fill workload: insert keys `ks 1, ks 2, .., ks m` in order. -/
def fillOps {κ τ : Type} (ks : Nat → κ) (vs : Nat → τ) (m : Nat) : List (CacheOp κ τ) :=
  (List.range m).map (fun i => CacheOp.insert (ks (i + 1)) (vs (i + 1)))

/-- Entries `(ks m, vs m), .., (ks 1, vs 1)` — the tile map after the fill. -/
def descPairs {κ τ : Type} (ks : Nat → κ) (vs : Nat → τ) : Nat → List (κ × τ)
  | 0 => []
  | m + 1 => (ks (m + 1), vs (m + 1)) :: descPairs ks vs m

/-- Keys `ks m, .., ks 1` — the LRU queue after the fill (most recent first). -/
def descKeys {κ : Type} (ks : Nat → κ) : Nat → List κ
  | 0 => []
  | m + 1 => ks (m + 1) :: descKeys ks m

/-- Keys `ks a, ks (a+1), .., ks (a+m-1)` in ascending order. -/
def ascFrom {κ : Type} (ks : Nat → κ) (a m : Nat) : List κ :=
  (List.range m).map (fun i => ks (a + i))

theorem ascFrom_succ_left {κ : Type} (ks : Nat → κ) (a m : Nat) :
    ascFrom ks a (m + 1) = ks a :: ascFrom ks (a + 1) m := by
  rw [ascFrom, ascFrom, List.range_succ_eq_map, List.map_cons, List.map_map]
  refine congrArg₂ _ (by rw [Nat.add_zero]) ?_
  refine congrArg₂ _ ?_ rfl
  funext i
  show ks (a + (i + 1)) = ks (a + 1 + i)
  rw [Nat.add_assoc a 1 i, Nat.add_comm 1 i]

theorem ascFrom_succ_right {κ : Type} (ks : Nat → κ) (a m : Nat) :
    ascFrom ks a (m + 1) = ascFrom ks a m ++ [ks (a + m)] := by
  rw [ascFrom, ascFrom, List.range_succ, List.map_append]
  rfl

theorem descKeys_reverse {κ : Type} (ks : Nat → κ) (m : Nat) :
    (descKeys ks m).reverse = ascFrom ks 1 m := by
  induction m with
  | zero => rfl
  | succ m ih =>
      rw [descKeys, List.reverse_cons, ih, ascFrom_succ_right]
      rw [Nat.add_comm 1 m]

theorem mem_ascFrom_exists {κ : Type} (ks : Nat → κ) (a m : Nat) (k : κ)
    (h : k ∈ ascFrom ks a m) : ∃ i, a ≤ i ∧ i < a + m ∧ k = ks i := by
  rw [ascFrom] at h
  rcases List.mem_map.mp h with ⟨i, hi, hk⟩
  exact ⟨a + i, by omega, by have := List.mem_range.mp hi; omega, hk.symm⟩

theorem mem_descKeys_exists {κ : Type} (ks : Nat → κ) (m : Nat) (k : κ)
    (h : k ∈ descKeys ks m) : ∃ i, 1 ≤ i ∧ i ≤ m ∧ k = ks i := by
  induction m with
  | zero => simp [descKeys] at h
  | succ m ih =>
      rw [descKeys] at h
      rcases List.mem_cons.mp h with he | hm
      · exact ⟨m + 1, by omega, by omega, he⟩
      · rcases ih hm with ⟨i, h1, h2, h3⟩
        exact ⟨i, h1, by omega, h3⟩

theorem descPairs_map_fst {κ τ : Type} (ks : Nat → κ) (vs : Nat → τ) (m : Nat) :
    (descPairs ks vs m).map Prod.fst = descKeys ks m := by
  induction m with
  | zero => rfl
  | succ m ih => rw [descPairs, descKeys, List.map_cons, ih]

theorem descPairs_length {κ τ : Type} (ks : Nat → κ) (vs : Nat → τ) (m : Nat) :
    (descPairs ks vs m).length = m := by
  induction m with
  | zero => rfl
  | succ m ih => rw [descPairs, List.length_cons, ih]

theorem lookup_descPairs {κ τ : Type} [DecidableEq κ] (ks : Nat → κ) (vs : Nat → τ)
    (N : Nat) (hinj : ∀ i j, i ≤ N → j ≤ N → ks i = ks j → i = j) :
    ∀ (m : Nat), m ≤ N → ∀ (i : Nat), 1 ≤ i → i ≤ N →
      lookupA (descPairs ks vs m) (ks i) = if i ≤ m then some (vs i) else none := by
  intro m
  induction m with
  | zero =>
      intro _ i hi1 _
      rw [if_neg (by omega)]
      rfl
  | succ m ih =>
      intro hmN i hi1 hiN
      rw [descPairs, lookupA]
      by_cases he : ks (m + 1) = ks i
      · have : m + 1 = i := hinj (m + 1) i (by omega) hiN he
        subst this
        rw [if_pos he, if_pos (by omega)]
      · have hne : i ≠ m + 1 := fun h => he (by rw [h])
        rw [if_neg he, ih (by omega) i hi1 hiN]
        by_cases hle : i ≤ m
        · rw [if_pos hle, if_pos (by omega)]
        · rw [if_neg hle, if_neg (by omega)]

theorem descKeys_nodup {κ : Type} (ks : Nat → κ) (N : Nat)
    (hinj : ∀ i j, i ≤ N → j ≤ N → ks i = ks j → i = j) :
    ∀ (m : Nat), m ≤ N → (descKeys ks m).Nodup := by
  intro m
  induction m with
  | zero => intro _; exact List.nodup_nil
  | succ m ih =>
      intro hmN
      rw [descKeys, List.nodup_cons]
      refine ⟨fun hm => ?_, ih (by omega)⟩
      rcases mem_descKeys_exists ks m _ hm with ⟨i, h1, h2, h3⟩
      have : m + 1 = i := hinj (m + 1) i (by omega) (by omega) h3
      omega

/-- Explicit cache state constructor (used to state exact cache contents). -/
def mkCache {κ τ : Type} (cap : Nat) (tiles : List (κ × τ)) (queue : List κ)
    (hits misses : Nat) : TileCache κ τ :=
  { max_tiles := cap, tiles := tiles, lru_queue := queue, hits := hits, misses := misses }

/-- State of the cache after inserting `ks 1 .. ks m` (with `m ≤ capacity`)
into a fresh cache: no eviction has happened, the map holds all `m` entries,
and the LRU queue lists them most-recent-first. -/
theorem runOps_fill {κ τ : Type} [DecidableEq κ] (C : Nat) (ks : Nat → κ) (vs : Nat → τ)
    (N : Nat) (hinj : ∀ i j, i ≤ N → j ≤ N → ks i = ks j → i = j) :
    ∀ (m : Nat), m ≤ C → m ≤ N →
      runOps C (fillOps ks vs m) = mkCache C (descPairs ks vs m) (descKeys ks m) 0 0 := by
  intro m
  induction m with
  | zero => intro _ _; rfl
  | succ m ih =>
      intro hmC hmN
      have hfill : fillOps ks vs (m + 1)
          = fillOps ks vs m ++ [CacheOp.insert (ks (m + 1)) (vs (m + 1))] := by
        rw [fillOps, fillOps, List.range_succ, List.map_append]
        rfl
      show (fillOps ks vs (m + 1)).foldl applyOp (TileCache.new C) = _
      rw [hfill, List.foldl_append]
      have hprev : (fillOps ks vs m).foldl applyOp (TileCache.new C)
          = mkCache C (descPairs ks vs m) (descKeys ks m) 0 0 :=
        ih (by omega) (by omega)
      rw [hprev]
      show TileCache.insert _ (ks (m + 1)) (vs (m + 1)) = _
      rw [insert_spec_fresh]
      · rfl
      · show lookupA (descPairs ks vs m) (ks (m + 1)) = none
        rw [lookup_descPairs ks vs N hinj m (by omega) (m + 1) (by omega) (by omega),
          if_neg (by omega)]
      · show (descPairs ks vs m).length < C
        rw [descPairs_length]
        omega

theorem mkCache_tiles {κ τ : Type} (cap : Nat) (t : List (κ × τ)) (q : List κ)
    (h m : Nat) : (mkCache cap t q h m).tiles = t := rfl

theorem mkCache_queue {κ τ : Type} (cap : Nat) (t : List (κ × τ)) (q : List κ)
    (h m : Nat) : (mkCache cap t q h m).lru_queue = q := rfl

theorem mkCache_max {κ τ : Type} (cap : Nat) (t : List (κ × τ)) (q : List κ)
    (h m : Nat) : (mkCache cap t q h m).max_tiles = cap := rfl

/-- `TileCache::insert` written as one equation (the `let`s unfolded). -/
theorem insert_eq {κ τ : Type} [DecidableEq κ] (c : TileCache κ τ) (k : κ) (v : τ) :
    c.insert k v = mkCache c.max_tiles
      (insertA (evictAux c.max_tiles c.tiles
        ((if (lookupA c.tiles k).isSome then removeKey c.lru_queue k
          else c.lru_queue).reverse)).1 k v)
      (k :: (evictAux c.max_tiles c.tiles
        ((if (lookupA c.tiles k).isSome then removeKey c.lru_queue k
          else c.lru_queue).reverse)).2.reverse)
      c.hits c.misses := rfl

theorem removeKey_append {κ : Type} [DecidableEq κ] (l₁ l₂ : List κ) (k : κ) :
    removeKey (l₁ ++ l₂) k = removeKey l₁ k ++ removeKey l₂ k := by
  induction l₁ with
  | nil => rfl
  | cons x xs ih =>
      rw [List.cons_append, removeKey, removeKey]
      by_cases hx : x = k
      · rw [if_pos hx, if_pos hx, ih]
      · rw [if_neg hx, if_neg hx, List.cons_append, ih]

theorem removeKey_singleton {κ : Type} [DecidableEq κ] (x k : κ) :
    removeKey [x] k = if x = k then [] else [x] := by
  rw [removeKey]
  split <;> rfl

theorem removeKey_reverse {κ : Type} [DecidableEq κ] (l : List κ) (k : κ) :
    removeKey l.reverse k = (removeKey l k).reverse := by
  induction l with
  | nil => rfl
  | cons x xs ih =>
      rw [List.reverse_cons, removeKey_append, ih, removeKey_singleton, removeKey]
      by_cases hx : x = k
      · rw [if_pos hx, if_pos hx, List.append_nil]
      · rw [if_neg hx, if_neg hx, List.reverse_cons]

theorem lookupA_cons {κ τ : Type} [DecidableEq κ] (k₀ : κ) (v₀ : τ)
    (es : List (κ × τ)) (k : κ) :
    lookupA ((k₀, v₀) :: es) k = if k₀ = k then some v₀ else lookupA es k := rfl

/-- Lookup table for the map after the `C+1` inserts: the first key is gone,
keys 2 through `C+1` are present. -/
theorem lookup_after_fill_succ {κ τ : Type} [DecidableEq κ] (C : Nat) (hC : 1 ≤ C)
    (ks : Nat → κ) (vs : Nat → τ)
    (hinj : ∀ i j, i ≤ C + 2 → j ≤ C + 2 → ks i = ks j → i = j) :
    ∀ i, 1 ≤ i → i ≤ C + 2 →
      lookupA ((ks (C + 1), vs (C + 1)) :: removeA (descPairs ks vs C) (ks 1)) (ks i)
        = if 2 ≤ i ∧ i ≤ C + 1 then some (vs i) else none := by
  intro i hi1 hi2
  rw [lookupA]
  by_cases he : ks (C + 1) = ks i
  · have : C + 1 = i := hinj (C + 1) i (by omega) (by omega) he
    subst this
    rw [if_pos rfl, if_pos ⟨by omega, by omega⟩]
  · have hne : i ≠ C + 1 := fun h => he (by rw [h])
    rw [if_neg he, lookupA_removeA]
    by_cases h1 : i = 1
    · subst h1
      rw [if_pos rfl, if_neg (by omega)]
    · rw [if_neg (fun h => h1 (hinj i 1 (by omega) (by omega) h)),
        lookup_descPairs ks vs (C + 2) hinj C (by omega) i (by omega) (by omega)]
      by_cases hle : i ≤ C
      · rw [if_pos hle, if_pos ⟨by omega, by omega⟩]
      · rw [if_neg hle, if_neg (by omega)]

theorem keys_after_fill_succ_nodup {κ τ : Type} [DecidableEq κ] (C : Nat) (hC : 1 ≤ C)
    (ks : Nat → κ) (vs : Nat → τ)
    (hinj : ∀ i j, i ≤ C + 2 → j ≤ C + 2 → ks i = ks j → i = j) :
    (((ks (C + 1), vs (C + 1)) :: removeA (descPairs ks vs C) (ks 1)).map
      Prod.fst).Nodup := by
  have hkeys : ((descPairs ks vs C).map Prod.fst).Nodup := by
    rw [descPairs_map_fst]
    exact descKeys_nodup ks (C + 2) hinj C (by omega)
  rw [List.map_cons, List.nodup_cons]
  refine ⟨fun hm => ?_, keys_removeA_nodup _ _ hkeys⟩
  have hsome := (lookupA_isSome_iff_mem (removeA (descPairs ks vs C) (ks 1))
    (ks (C + 1))).mpr hm
  rw [lookupA_removeA] at hsome
  by_cases he : ks (C + 1) = ks 1
  · have := hinj (C + 1) 1 (by omega) (by omega) he
    omega
  · rw [if_neg he, lookup_descPairs ks vs (C + 2) hinj C (by omega) (C + 1) (by omega)
      (by omega), if_neg (by omega)] at hsome
    exact absurd hsome (by simp)

/-- State after inserting `C+1` distinct keys into a fresh capacity-`C`
cache: exactly one eviction has occurred and it removed `ks 1`, the first
key inserted. -/
theorem runOps_fill_succ {κ τ : Type} [DecidableEq κ] (C : Nat) (hC : 1 ≤ C)
    (ks : Nat → κ) (vs : Nat → τ)
    (hinj : ∀ i j, i ≤ C + 2 → j ≤ C + 2 → ks i = ks j → i = j) :
    runOps C (fillOps ks vs (C + 1)) = mkCache C
      ((ks (C + 1), vs (C + 1)) :: removeA (descPairs ks vs C) (ks 1))
      (ks (C + 1) :: (ascFrom ks 2 (C - 1)).reverse) 0 0 := by
  have hfill : fillOps ks vs (C + 1)
      = fillOps ks vs C ++ [CacheOp.insert (ks (C + 1)) (vs (C + 1))] := by
    rw [fillOps, fillOps, List.range_succ, List.map_append]
    rfl
  show (fillOps ks vs (C + 1)).foldl applyOp (TileCache.new C) = _
  rw [hfill, List.foldl_append]
  have hprev : (fillOps ks vs C).foldl applyOp (TileCache.new C)
      = mkCache C (descPairs ks vs C) (descKeys ks C) 0 0 :=
    runOps_fill C ks vs (C + 2) hinj C (by omega) (by omega)
  rw [hprev]
  show TileCache.insert _ (ks (C + 1)) (vs (C + 1)) = _
  rw [insert_eq]
  rw [mkCache_tiles, mkCache_queue, mkCache_max]
  have hlookup : lookupA (descPairs ks vs C) (ks (C + 1)) = none := by
    rw [lookup_descPairs ks vs (C + 2) hinj C (by omega) (C + 1) (by omega) (by omega),
      if_neg (by omega)]
  have hC1 : C = (C - 1) + 1 := by omega
  have hasc : ascFrom ks 1 C = ks 1 :: ascFrom ks 2 (C - 1) := by
    conv_lhs => rw [hC1, ascFrom_succ_left]
  have hnd : ((descPairs ks vs C).map Prod.fst).Nodup := by
    rw [descPairs_map_fst]
    exact descKeys_nodup ks (C + 2) hinj C (by omega)
  have hlen1 : (removeA (descPairs ks vs C) (ks 1)).length + 1 = C := by
    have hx := length_removeA_present (descPairs ks vs C) (ks 1) hnd
      (by rw [lookup_descPairs ks vs (C + 2) hinj C (by omega) 1 (by omega) (by omega),
        if_pos (by omega)]; rfl)
    rw [descPairs_length] at hx
    exact hx
  have hfresh : lookupA (removeA (descPairs ks vs C) (ks 1)) (ks (C + 1)) = none := by
    rw [lookupA_removeA,
      if_neg (fun h => by have := hinj (C + 1) 1 (by omega) (by omega) h; omega), hlookup]
  rw [hlookup, if_neg (by simp), descKeys_reverse, hasc, evictAux,
    if_pos (by rw [descPairs_length]), evictAux_no_evict _ _ _ (by omega),
    insertA, removeA_of_lookup_none _ _ hfresh]
  rfl

theorem length_after_fill_succ {κ τ : Type} [DecidableEq κ] (C : Nat) (hC : 1 ≤ C)
    (ks : Nat → κ) (vs : Nat → τ)
    (hinj : ∀ i j, i ≤ C + 2 → j ≤ C + 2 → ks i = ks j → i = j) :
    ((ks (C + 1), vs (C + 1)) :: removeA (descPairs ks vs C) (ks 1)).length = C := by
  have hnd : ((descPairs ks vs C).map Prod.fst).Nodup := by
    rw [descPairs_map_fst]
    exact descKeys_nodup ks (C + 2) hinj C (by omega)
  have hx := length_removeA_present (descPairs ks vs C) (ks 1) hnd
    (by rw [lookup_descPairs ks vs (C + 2) hinj C (by omega) 1 (by omega) (by omega),
      if_pos (by omega)]; rfl)
  rw [descPairs_length] at hx
  rw [List.length_cons]
  omega

/-- State after additionally touching `ks 2` with a `get` and inserting one
further distinct key: this time the eviction removes `ks 3`, the
third-inserted key (`ks 1` is already gone and `ks 2` was just protected). -/
theorem runOps_scenario2 {κ τ : Type} [DecidableEq κ] (C : Nat) (hC : 2 ≤ C)
    (ks : Nat → κ) (vs : Nat → τ)
    (hinj : ∀ i j, i ≤ C + 2 → j ≤ C + 2 → ks i = ks j → i = j) :
    runOps C (fillOps ks vs (C + 1) ++
        [CacheOp.get (ks 2), CacheOp.insert (ks (C + 2)) (vs (C + 2))])
      = mkCache C
          ((ks (C + 2), vs (C + 2)) ::
            removeA ((ks (C + 1), vs (C + 1)) :: removeA (descPairs ks vs C) (ks 1)) (ks 3))
          (ks (C + 2) :: (ascFrom ks 4 (C - 2) ++ [ks 2]).reverse) 1 0 := by
  have hne : ∀ i j, i ≤ C + 2 → j ≤ C + 2 → i ≠ j → ks i ≠ ks j :=
    fun i j hi hj hij he => hij (hinj i j hi hj he)
  have hlookS1 := lookup_after_fill_succ C (by omega) ks vs hinj
  show (fillOps ks vs (C + 1) ++
    [CacheOp.get (ks 2), CacheOp.insert (ks (C + 2)) (vs (C + 2))]).foldl applyOp
      (TileCache.new C) = _
  rw [List.foldl_append]
  have h1 : (fillOps ks vs (C + 1)).foldl applyOp (TileCache.new C)
      = mkCache C ((ks (C + 1), vs (C + 1)) :: removeA (descPairs ks vs C) (ks 1))
          (ks (C + 1) :: (ascFrom ks 2 (C - 1)).reverse) 0 0 :=
    runOps_fill_succ C (by omega) ks vs hinj
  rw [h1]
  show TileCache.insert (TileCache.get _ (ks 2)).2 (ks (C + 2)) (vs (C + 2)) = _
  have hcond2 : lookupA ((ks (C + 1), vs (C + 1)) ::
      removeA (descPairs ks vs C) (ks 1)) (ks 2) = some (vs 2) := by
    rw [hlookS1 2 (by omega) (by omega), if_pos ⟨by omega, by omega⟩]
  have hget : (TileCache.get (mkCache C
      ((ks (C + 1), vs (C + 1)) :: removeA (descPairs ks vs C) (ks 1))
      (ks (C + 1) :: (ascFrom ks 2 (C - 1)).reverse) 0 0) (ks 2)).2
      = mkCache C ((ks (C + 1), vs (C + 1)) :: removeA (descPairs ks vs C) (ks 1))
          (ks 2 :: removeKey (ks (C + 1) :: (ascFrom ks 2 (C - 1)).reverse) (ks 2)) 1 0 := by
    rw [get_snd_eq, mkCache_tiles, hcond2, if_pos (by simp)]
    rfl
  rw [hget]
  have hq2 : removeKey (ks (C + 1) :: (ascFrom ks 2 (C - 1)).reverse) (ks 2)
      = ks (C + 1) :: (ascFrom ks 3 (C - 2)).reverse := by
    rw [removeKey, if_neg (hne (C + 1) 2 (by omega) (by omega) (by omega)),
      removeKey_reverse]
    have h2 : ascFrom ks 2 (C - 1) = ks 2 :: ascFrom ks 3 (C - 2) := by
      have hc2 : C - 1 = (C - 2) + 1 := by omega
      rw [hc2, ascFrom_succ_left]
    rw [h2, removeKey, if_pos rfl, removeKey_of_not_mem]
    intro hm
    rcases mem_ascFrom_exists ks 3 (C - 2) (ks 2) hm with ⟨i, hi1, hi2, hi3⟩
    have := hinj 2 i (by omega) (by omega) hi3
    omega
  rw [hq2]
  rw [insert_eq, mkCache_tiles, mkCache_queue, mkCache_max]
  have hfreshC2 : lookupA ((ks (C + 1), vs (C + 1)) ::
      removeA (descPairs ks vs C) (ks 1)) (ks (C + 2)) = none := by
    rw [hlookS1 (C + 2) (by omega) (by omega), if_neg (by omega)]
  rw [hfreshC2, if_neg (by simp)]
  have hrev : (ks 2 :: ks (C + 1) :: (ascFrom ks 3 (C - 2)).reverse).reverse
      = ks 3 :: (ascFrom ks 4 (C - 2) ++ [ks 2]) := by
    rw [List.reverse_cons, List.reverse_cons, List.reverse_reverse]
    have ha : ascFrom ks 3 (C - 2) ++ [ks (C + 1)] = ascFrom ks 3 (C - 1) := by
      have hc21 : C - 1 = (C - 2) + 1 := by omega
      rw [hc21, ascFrom_succ_right, show (3 : Nat) + (C - 2) = C + 1 from by omega]
    have hb : ascFrom ks 3 (C - 1) = ks 3 :: ascFrom ks 4 (C - 2) := by
      have hc : C - 1 = (C - 2) + 1 := by omega
      rw [hc, ascFrom_succ_left]
    rw [List.append_assoc, ← List.append_assoc, ha, hb, List.cons_append]
  rw [hrev]
  have hndS1 := keys_after_fill_succ_nodup C (by omega) ks vs hinj
  have hlenS1 := length_after_fill_succ C (by omega) ks vs hinj
  have hlook3 : lookupA ((ks (C + 1), vs (C + 1)) ::
      removeA (descPairs ks vs C) (ks 1)) (ks 3) = some (vs 3) := by
    rw [hlookS1 3 (by omega) (by omega), if_pos ⟨by omega, by omega⟩]
  have hlen3 := length_removeA_present _ (ks 3) hndS1 (by rw [hlook3]; rfl)
  rw [evictAux, if_pos (by rw [hlenS1]), evictAux_no_evict _ _ _ (by omega)]
  have hfresh3 : lookupA (removeA ((ks (C + 1), vs (C + 1)) ::
      removeA (descPairs ks vs C) (ks 1)) (ks 3)) (ks (C + 2)) = none := by
    rw [lookupA_removeA, if_neg (hne (C + 2) 3 (by omega) (by omega) (by omega)), hfreshC2]
  rw [insertA, removeA_of_lookup_none _ _ hfresh3]
  rfl

/-- C5 (amended): for every capacity `C ≥ 1` and distinct keys, inserting
`C+1` keys into a fresh cache causes exactly one eviction, of the
first-inserted key (keys 2 through `C+1` remain, `C` entries in total).
If, continuing from there (`C ≥ 2`), a `get` on the second-inserted key
precedes one further insert, the key evicted by that insert is the
third-inserted one (`ks 2` survives, the entry count stays `C`).  The
claim's reading in which the `get` precedes the `(C+1)`-th insert is false:
see the counterexample, where the first-inserted key is evicted instead. -/
theorem lru_evicts_first_then_third (C : Nat) (hC : 1 ≤ C)
    (ks : Nat → TileKey) (vs : Nat → TileData)
    (hinj : ∀ i j, i ≤ C + 2 → j ≤ C + 2 → ks i = ks j → i = j) :
    (lookupA (runOps C (fillOps ks vs (C + 1))).tiles (ks 1) = none ∧
     (runOps C (fillOps ks vs (C + 1))).tiles.length = C ∧
     (∀ i, 2 ≤ i → i ≤ C + 1 →
       lookupA (runOps C (fillOps ks vs (C + 1))).tiles (ks i) = some (vs i))) ∧
    (2 ≤ C →
     lookupA (runOps C (fillOps ks vs (C + 1) ++ [CacheOp.get (ks 2),
       CacheOp.insert (ks (C + 2)) (vs (C + 2))])).tiles (ks 3) = none ∧
     lookupA (runOps C (fillOps ks vs (C + 1) ++ [CacheOp.get (ks 2),
       CacheOp.insert (ks (C + 2)) (vs (C + 2))])).tiles (ks 2) = some (vs 2) ∧
     (runOps C (fillOps ks vs (C + 1) ++ [CacheOp.get (ks 2),
       CacheOp.insert (ks (C + 2)) (vs (C + 2))])).tiles.length = C) := by
  have hne : ∀ i j, i ≤ C + 2 → j ≤ C + 2 → i ≠ j → ks i ≠ ks j :=
    fun i j hi hj hij he => hij (hinj i j hi hj he)
  have hlookS1 := lookup_after_fill_succ C hC ks vs hinj
  constructor
  · rw [runOps_fill_succ C hC ks vs hinj, mkCache_tiles]
    refine ⟨?_, length_after_fill_succ C hC ks vs hinj, ?_⟩
    · rw [hlookS1 1 (by omega) (by omega), if_neg (by omega)]
    · intro i hi1 hi2
      rw [hlookS1 i (by omega) (by omega), if_pos ⟨hi1, hi2⟩]
  · intro hC2
    rw [runOps_scenario2 C hC2 ks vs hinj, mkCache_tiles]
    have hndS1 := keys_after_fill_succ_nodup C hC ks vs hinj
    have hlenS1 := length_after_fill_succ C hC ks vs hinj
    have hlook3 : lookupA ((ks (C + 1), vs (C + 1)) ::
        removeA (descPairs ks vs C) (ks 1)) (ks 3) = some (vs 3) := by
      rw [hlookS1 3 (by omega) (by omega), if_pos ⟨by omega, by omega⟩]
    refine ⟨?_, ?_, ?_⟩
    · rw [lookupA_cons, if_neg (hne (C + 2) 3 (by omega) (by omega) (by omega)),
        lookupA_removeA, if_pos rfl]
    · rw [lookupA_cons, if_neg (hne (C + 2) 2 (by omega) (by omega) (by omega)),
        lookupA_removeA, if_neg (hne 2 3 (by omega) (by omega) (by omega)),
        hlookS1 2 (by omega) (by omega), if_pos ⟨by omega, by omega⟩]
    · rw [List.length_cons]
      have := length_removeA_present _ (ks 3) hndS1 (by rw [hlook3]; rfl)
      omega

/-- C5 (counterexample to the claim as stated): with capacity 3, insert
three distinct keys, `get` the second-inserted one, then insert one more
distinct key.  The claim says the third-inserted key is evicted; in fact the
third key is still cached and the evicted key is the first-inserted one. -/
def c5CounterOps : List (CacheOp TileKey TileData) :=
  [CacheOp.insert (demoKey 1) (demoTile 1), CacheOp.insert (demoKey 2) (demoTile 2),
   CacheOp.insert (demoKey 3) (demoTile 3), CacheOp.get (demoKey 2),
   CacheOp.insert (demoKey 4) (demoTile 4)]

theorem lru_get_before_extra_insert_keeps_third :
    lookupA (runOps 3 c5CounterOps).tiles (demoKey 3) = some (demoTile 3) ∧
    lookupA (runOps 3 c5CounterOps).tiles (demoKey 1) = none := by
  constructor
  · rfl
  · rfl

theorem lru_evicts_first_then_third_witness :
    lookupA (runOps 3 (fillOps demoKey demoTile (3 + 1))).tiles (demoKey 1) = none ∧
    (runOps 3 (fillOps demoKey demoTile (3 + 1))).tiles.length = 3 ∧
    lookupA (runOps 3 (fillOps demoKey demoTile (3 + 1))).tiles (demoKey 2)
      = some (demoTile 2) ∧
    lookupA (runOps 3 (fillOps demoKey demoTile (3 + 1) ++ [CacheOp.get (demoKey 2),
      CacheOp.insert (demoKey (3 + 2)) (demoTile (3 + 2))])).tiles (demoKey 3) = none := by
  have hinj : ∀ i j, i ≤ 3 + 2 → j ≤ 3 + 2 → demoKey i = demoKey j → i = j := by
    intro i j hi hj h
    have hgen := congrArg TileKey.generation_start h
    simp only [demoKey] at hgen
    omega
  have h := lru_evicts_first_then_third 3 (by omega) demoKey demoTile hinj
  exact ⟨h.1.1, h.1.2.1, h.1.2.2 2 (by omega) (by omega), (h.2 (by omega)).1⟩

/-! ## Viewport assembly with tile caching (`run_ca_with_cache`, `compute.rs`)

`compute.rs` builds cache keys from the tile grid coordinates
(`TileKey::new(rule, &initial_state, tile_x, tile_y)`) and `render.rs`
constructs the cache as `TileCache::new(cache_tiles, tile_size)`, while the
`cache.rs` in the tree still carries the older generation-range key whose
`TileKey::new` takes six arguments — the crate does not compile as a whole.
The grid key below is therefore modelled from the spec (TileKey =
(rule, initial-state digest, tile_x, tile_y)), which is the key that
`compute.rs` and `render.rs` are written against; the cache logic itself is
the `cache.rs` LRU embedded above, and the tile size is threaded as an
explicit parameter. -/

/-- Modelled from the spec: the tile-grid cache key expected by
`compute.rs` and `render.rs`. -/
structure TileKeyGrid where
  rule : Nat
  initial_state_hash : Nat
  tile_x : Int
  tile_y : Int
deriving DecidableEq

/-- Modelled from the spec: grid-key constructor used by
`run_ca_with_cache`. -/
def TileKeyGrid.new (rule : Nat) (state : Option (List Char)) (tile_x tile_y : Int) :
    TileKeyGrid :=
  { rule := rule, initial_state_hash := hashInitialState state,
    tile_x := tile_x, tile_y := tile_y }

/-- The inclusive integer range `lo..=hi` iterated by the tile loops. -/
def intRange (lo hi : Int) : List Int :=
  (List.range (hi + 1 - lo).toNat).map (fun k : Nat => lo + (k : Int))

/-- Covering tile range start: `div_euclid(v, T)` (`run_ca_with_cache`). -/
def tileRangeStart (v T : Int) : Int := Int.ediv v T

/-- Covering tile range end: `div_euclid(v - 1, T)` (`run_ca_with_cache`). -/
def tileRangeEnd (v T : Int) : Int := Int.ediv (v - 1) T

/-- Row-major iteration over the covering tile grid (`tile_y` outer loop). -/
def tilePairs (ty0 ty1 tx0 tx1 : Int) : List (Int × Int) :=
  (intRange ty0 ty1).flatMap (fun ty => (intRange tx0 tx1).map (fun tx => (ty, tx)))

/-- One `copy_buffer_to_buffer` of `len` words from `src` at `srcOff` into
`dst` at `dstOff`. -/
def writeRange (dst : Nat → Nat) (dstOff : Nat) (src : Nat → Nat) (srcOff len : Nat) :
    Nat → Nat :=
  fun i => if dstOff ≤ i ∧ i < dstOff + len then src (srcOff + (i - dstOff)) else dst i

/-- Phase 1 of `run_ca_with_cache`: for each covering tile, `get` it from
the cache and, on a miss, compute and insert it. -/
def materializePhase (rule T : Nat) (state : Option (List Char))
    (pairs : List (Int × Int)) (cache : TileCache TileKeyGrid TileM) :
    TileCache TileKeyGrid TileM :=
  pairs.foldl (fun c p =>
    let r := c.get (TileKeyGrid.new rule state p.2 p.1)
    if r.1.isNone then
      r.2.insert (TileKeyGrid.new rule state p.2 p.1) (computeTile rule p.2 p.1 T state)
    else r.2) cache

/-- Phase 2 per-tile copies: one `writeRange` per overlapping generation
row, guarded by the defensive bounds checks of the source. -/
def assembleTile (buf : Nat → Nat) (tile : TileM) (ty tx : Int) (T : Nat)
    (vxs vxe vys vye : Int) (padding simw iterations : Nat) : Nat → Nat :=
  let twx0 := tx * (T : Int)
  let tg0 := ty * (T : Int)
  let cx0 := max vxs twx0
  let cx1 := min vxe (twx0 + T)
  let cg0 := max vys tg0
  let cg1 := min vye (tg0 + T)
  if cx1 ≤ cx0 ∨ cg1 ≤ cg0 then buf
  else
    (intRange cg0 (cg1 - 1)).foldl (fun b g =>
      let gv := (g - vys).toNat
      let gt := (g - tg0).toNat
      let sw := (cx1 - cx0).toNat
      let xt := (cx0 - twx0).toNat + tile.padding_left
      let xo := (cx0 - vxs).toNat + padding
      if T ≤ gt ∨ iterations ≤ gv then b
      else if tile.simulated_width < xt + sw then b
      else if simw < xo + sw then b
      else writeRange b (gv * simw + xo) tile.buffer (gt * tile.simulated_width + xt) sw)
      buf

/-- Phase 2 of `run_ca_with_cache`: look up every covering tile again
(`cache.get(..).expect("Tile should be in cache")`) and stitch its overlap
into the output buffer.  A failed lookup models the `expect` panic. -/
def assemblePhase (rule T : Nat) (state : Option (List Char))
    (pairs : List (Int × Int)) (vxs vxe vys vye : Int)
    (padding simw iterations : Nat)
    (acc : Option ((Nat → Nat) × TileCache TileKeyGrid TileM)) :
    Option ((Nat → Nat) × TileCache TileKeyGrid TileM) :=
  pairs.foldl (fun acc p =>
    match acc with
    | none => none
    | some (buf, c) =>
        match c.get (TileKeyGrid.new rule state p.2 p.1) with
        | (none, _) => none
        | (some tile, c') =>
            some (assembleTile buf tile p.1 p.2 T vxs vxe vys vye padding simw iterations,
              c')) acc

/-- `run_ca_with_cache`: materialize the covering tiles through the LRU
cache, then assemble the viewport buffer (zero-initialised, as device
buffers are) from device-to-device copies.  Returns `none` when the
assembly phase panics on an evicted tile. -/
def runCaWithCache (rule : Nat) (start_generation iterations visible_width : Nat)
    (horizontal_offset : Int) (state : Option (List Char)) (tile_size : Nat)
    (cache : TileCache TileKeyGrid TileM) :
    Option (CaResultM × TileCache TileKeyGrid TileM) :=
  let vxs : Int := horizontal_offset
  let vxe : Int := horizontal_offset + (visible_width : Int)
  let vys : Int := (start_generation : Int)
  let vye : Int := ((start_generation + iterations : Nat) : Int)
  let T : Int := (tile_size : Int)
  let pairs := tilePairs (tileRangeStart vys T) (tileRangeEnd vye T)
    (tileRangeStart vxs T) (tileRangeEnd vxe T)
  let cache1 := materializePhase rule tile_size state pairs cache
  let padding := start_generation + iterations
  let simw := visible_width + 2 * padding
  match assemblePhase rule tile_size state pairs vxs vxe vys vye padding simw iterations
      (some (fun _ => 0, cache1)) with
  | none => none
  | some (buf, c2) =>
      some ({ buffer := buf, simulated_width := simw, visible_width := visible_width,
              height := iterations + 1, padding_left := padding }, c2)

/-- C3 (code evaluation at the failing input): with cache capacity 4 and a
viewport covered by a 2-by-3 grid of 6 tiles (tile size 256, visible width
512, 768 generations from 0), the recomputation pass does not complete: the
two tiles of the first grid row are evicted while the remaining tiles are
inserted during phase 1, so phase 2's
`cache.get(&tile_key).expect("Tile should be in cache")` panics on tile
(0, 0) instead of finishing with 4 entries and serving 4 of 6 tiles from
cache on a second pass. -/
theorem run_ca_with_cache_panics_capacity4_grid6 :
    (runCaWithCache 30 0 768 512 0 none 256
      (TileCache.new 4 : TileCache TileKeyGrid TileM)).isNone = true := by
  rfl

/-! ## Viewport planner and safety limits (`render.rs`, `lib.rs`) -/

/-- Safety constants from `lib.rs`. -/
def MAX_CELLS_X : Nat := 5000

def MAX_CELLS_Y : Nat := 5000

def MIN_CELL_SIZE : Nat := 2

def MAX_TOTAL_CELLS : Nat := 10000000

def DEFAULT_CELL_SIZE : Nat := 10

def ZOOM_MIN : ℚ := 1 / 10

def ZOOM_MAX : ℚ := 50

/-- Rust's `f32 as i32` cast rounds toward zero; `f32` viewport coordinates
are modelled as exact rationals. -/
def ratTrunc (q : ℚ) : Int := if 0 ≤ q then ⌊q⌋ else -⌊-q⌋

/-- Left edge of the visible cell rectangle:
`let horizontal_offset = self.viewport.offset_x as i32` in `compute_ca`. -/
def viewportXStart (offset_x : ℚ) : Int := ratTrunc offset_x

/-- Viewport state (`render.rs`): offsets in world cells, plus the legacy
zoom factor (1.0 everywhere in the current code path). -/
structure Viewport where
  offset_x : ℚ
  offset_y : ℚ
  zoom : ℚ

/-- The slice of `RenderApp` state that `compute_ca` reads and writes. -/
structure RenderState where
  window_width : Nat
  window_height : Nat
  current_cell_size : Nat
  viewport : Viewport
  rule : Nat
  initial_state : Option (List Char)
  buffer_simulated_width : Nat
  buffer_padding_left : Nat
  bound_result : Option CaResultM
  buffer_viewport : Viewport

/-- `visible_cells_x = ceil((window_width / cell_size) / zoom)` cast to u32
(negative results saturate to 0). -/
def visibleCellsX (s : RenderState) : Nat :=
  (⌈((s.window_width : ℚ) / (s.current_cell_size : ℚ)) / s.viewport.zoom⌉).toNat

def visibleCellsY (s : RenderState) : Nat :=
  (⌈((s.window_height : ℚ) / (s.current_cell_size : ℚ)) / s.viewport.zoom⌉).toNat

/-- `RenderApp::compute_ca` (`render.rs`): run the safety checks in source
order, returning the state unchanged on any violation; otherwise run the
computation and rebind the buffer, parameters and baked viewport.  (The
uncached `run_ca` branch is modelled; the guard precedes either branch.) -/
def computeCa (s : RenderState) : RenderState :=
  if s.current_cell_size < MIN_CELL_SIZE then s
  else if MAX_CELLS_X < visibleCellsX s ∨ MAX_CELLS_Y < visibleCellsY s then s
  else if MAX_TOTAL_CELLS < visibleCellsX s * 3 * visibleCellsY s then s
  else
    let res := runCa s.rule (⌊max s.viewport.offset_y 0⌋).toNat (visibleCellsY s)
      (visibleCellsX s) (ratTrunc s.viewport.offset_x) s.initial_state
    { s with bound_result := some res,
             buffer_simulated_width := res.simulated_width,
             buffer_padding_left := res.padding_left,
             buffer_viewport := s.viewport }

/-- C9: whenever any of the four planner safety limits is violated, the
recomputation pass is skipped and the entire render state — bound viewport
buffer, render parameters, baked-viewport record — is left unchanged. -/
theorem computeCa_skips_on_limits (s : RenderState)
    (h : MAX_CELLS_X < visibleCellsX s ∨ MAX_CELLS_Y < visibleCellsY s ∨
      s.current_cell_size < MIN_CELL_SIZE ∨
      MAX_TOTAL_CELLS < visibleCellsX s * 3 * visibleCellsY s) :
    computeCa s = s := by
  rw [computeCa]
  by_cases h1 : s.current_cell_size < MIN_CELL_SIZE
  · rw [if_pos h1]
  · rw [if_neg h1]
    by_cases h2 : MAX_CELLS_X < visibleCellsX s ∨ MAX_CELLS_Y < visibleCellsY s
    · rw [if_pos h2]
    · rw [if_neg h2]
      have h3 : MAX_TOTAL_CELLS < visibleCellsX s * 3 * visibleCellsY s := by
        rcases h with h | h | h | h
        · exact absurd (Or.inl h) h2
        · exact absurd (Or.inr h) h2
        · exact absurd h h1
        · exact h
      rw [if_pos h3]

/-- A state with a too-small cell size, used to exercise the guard. -/
def tinyCellState : RenderState :=
  { window_width := 500, window_height := 500, current_cell_size := 1,
    viewport := { offset_x := 0, offset_y := 0, zoom := 1 },
    rule := 30, initial_state := none, buffer_simulated_width := 0,
    buffer_padding_left := 0, bound_result := none,
    buffer_viewport := { offset_x := 0, offset_y := 0, zoom := 1 } }

theorem computeCa_skips_on_limits_witness :
    (MAX_CELLS_X < visibleCellsX tinyCellState ∨
      MAX_CELLS_Y < visibleCellsY tinyCellState ∨
      tinyCellState.current_cell_size < MIN_CELL_SIZE ∨
      MAX_TOTAL_CELLS < visibleCellsX tinyCellState * 3 * visibleCellsY tinyCellState) ∧
    computeCa tinyCellState = tinyCellState :=
  ⟨Or.inr (Or.inr (Or.inl (by decide))),
    computeCa_skips_on_limits tinyCellState (Or.inr (Or.inr (Or.inl (by decide))))⟩

/-- C8 counterexample: at `offset_x = -1/2` the planner's
`offset_x as i32` cast yields 0, while the floor toward minus infinity the
spec prescribes is -1. -/
theorem viewportXStart_not_floor :
    viewportXStart (-(1 : ℚ) / 2) = 0 ∧ ⌊(-(1 : ℚ) / 2)⌋ = -1 := by
  constructor
  · rw [viewportXStart, ratTrunc, if_neg (by norm_num)]
    norm_num [Int.floor_eq_iff]
  · norm_num [Int.floor_eq_iff]

/-- C8 (amended): the visible rectangle starts at `offset_x as i32`, which is
truncation toward zero — it agrees with ⌊offset_x⌋ only for offset_x ≥ 0 —
while the tile cover really is Euclidean floor division: `tile_x_start` is
the unique t with T·t ≤ viewport_x_start < T·(t+1), and `tile_x_end` the
unique t with T·t ≤ viewport_x_end − 1 < T·(t+1) (likewise for tile_y). -/
theorem planner_trunc_and_euclid_tile_range (q : ℚ) (v T : Int) (hT : 0 < T) :
    viewportXStart q = ratTrunc q ∧
    (0 ≤ q → viewportXStart q = ⌊q⌋) ∧
    T * tileRangeStart v T ≤ v ∧ v < T * (tileRangeStart v T + 1) ∧
    T * tileRangeEnd v T ≤ v - 1 ∧ v - 1 < T * (tileRangeEnd v T + 1) := by
  have hds : tileRangeStart v T = v / T := rfl
  have hde : tileRangeEnd v T = (v - 1) / T := rfl
  have h1 := Int.ediv_add_emod v T
  have h2 := Int.emod_nonneg v (ne_of_gt hT)
  have h3 := Int.emod_lt_of_pos v hT
  have h1' := Int.ediv_add_emod (v - 1) T
  have h2' := Int.emod_nonneg (v - 1) (ne_of_gt hT)
  have h3' := Int.emod_lt_of_pos (v - 1) hT
  rw [hds, hde]
  refine ⟨rfl, ?_, by linarith, by linarith, by linarith, by linarith⟩
  intro h
  rw [viewportXStart, ratTrunc, if_pos h]

theorem planner_trunc_and_euclid_tile_range_witness :
    viewportXStart (3 / 2 : ℚ) = ⌊(3 / 2 : ℚ)⌋ ∧
    256 * tileRangeStart (-5) 256 ≤ -5 ∧
    (-5 : Int) < 256 * (tileRangeStart (-5) 256 + 1) ∧
    256 * tileRangeEnd (-5) 256 ≤ -5 - 1 ∧
    (-5 : Int) - 1 < 256 * (tileRangeEnd (-5) 256 + 1) :=
  ⟨(planner_trunc_and_euclid_tile_range (3 / 2) (-5) 256 (by decide)).2.1 (by norm_num),
   (planner_trunc_and_euclid_tile_range (3 / 2) (-5) 256 (by decide)).2.2.1,
   (planner_trunc_and_euclid_tile_range (3 / 2) (-5) 256 (by decide)).2.2.2.1,
   (planner_trunc_and_euclid_tile_range (3 / 2) (-5) 256 (by decide)).2.2.2.2.1,
   (planner_trunc_and_euclid_tile_range (3 / 2) (-5) 256 (by decide)).2.2.2.2.2⟩

/-! ## Viewport mutations and the offset_y ≥ 0 invariant (`render.rs`) -/

/-- Mouse drag (`CursorMoved` with an active drag): the pixel delta becomes a
cell delta via `visible_cells_y = (window_height / cell_size) / zoom`, is
added to the offset recorded at drag start, and the result is clamped with
`.max(0.0)`. -/
def dragNewOffsetY (startY deltaY windowH cellSize zoom : ℚ) : ℚ :=
  max (startY + -(deltaY / windowH) * ((windowH / cellSize) / zoom)) 0

/-- Single-touch pan (`Touch`, `TouchPhase::Moved`): as the drag, but the
cell delta uses `visible_cells_y = window_height / cell_size` (no zoom
division), again clamped with `.max(0.0)`. -/
def touchPanNewOffsetY (startY deltaY windowH cellSize : ℚ) : ℚ :=
  max (startY + -(deltaY / windowH) * (windowH / cellSize)) 0

/-- `handle_zoom`: `(DEFAULT_CELL_SIZE * ZOOM_MIN).max(1.0) as u32`. -/
def wheelMinCellSize : Nat :=
  (ratTrunc (max ((DEFAULT_CELL_SIZE : ℚ) * ZOOM_MIN) 1)).toNat

/-- `handle_zoom`: `(DEFAULT_CELL_SIZE * ZOOM_MAX) as u32`. -/
def wheelMaxCellSize : Nat :=
  (ratTrunc ((DEFAULT_CELL_SIZE : ℚ) * ZOOM_MAX)).toNat

/-- The wheel-zoom ladder of `handle_zoom`, retained to the zoom range. -/
def wheelZoomLevels : List Nat :=
  [2, 3, 4, 5, 6, 7, 8, 9, 10,
   12, 14, 16, 18, 20, 24, 28, 32, 36, 40,
   45, 50, 60, 70, 80, 90, 100, 120, 140, 160, 180, 200,
   250, 300, 350, 400, 450, 500, 600, 700, 800, 900, 1000].filter
    (fun size => decide (wheelMinCellSize ≤ size) && decide (size ≤ wheelMaxCellSize))

/-- `handle_zoom` picks the next/previous ladder entry: `position(|&size|
size >= old_cell_size)` defaulting to the last index, bumped by the wheel
direction with saturation at both ends, then indexed into the ladder. -/
def handleZoomNewCellSize (old_cell_size : Nat) (delta : ℚ) : Nat :=
  let current_index :=
    (wheelZoomLevels.findIdx? (fun size => decide (old_cell_size ≤ size))).getD
      (wheelZoomLevels.length - 1)
  let new_index :=
    if 0 < delta then min (current_index + 1) (wheelZoomLevels.length - 1)
    else current_index - 1
  wheelZoomLevels.getD new_index 0

/-- `handle_zoom`'s effect on `offset_y`: when the cell size changes, keep
the world cell under the cursor fixed and clamp with `.max(0.0)`; otherwise
leave the offset untouched. -/
def handleZoomNewOffsetY (offsetY : ℚ) (old_cs : Nat) (delta cursor_y : ℚ)
    (window_h : Nat) : ℚ :=
  if handleZoomNewCellSize old_cs delta ≠ old_cs then
    max (offsetY + cursor_y / (window_h : ℚ) * ((window_h : ℚ) / (old_cs : ℚ))
      - cursor_y / (window_h : ℚ)
        * ((window_h : ℚ) / (handleZoomNewCellSize old_cs delta : ℚ))) 0
  else offsetY

/-- The pinch ladder (`Touch`, `TouchPhase::Moved`, two active touches); the
min/max cell sizes are computed by the same formulas as in `handle_zoom`. -/
def pinchZoomLevels : List Nat :=
  [1, 2, 3, 4, 5, 6, 7, 8, 9, 10, 12, 15, 20, 25, 30, 40, 50, 75, 100,
   150, 200, 300, 400, 500].filter
    (fun z => decide (wheelMinCellSize ≤ z) && decide (z ≤ wheelMaxCellSize))

/-- `min_by_key(|&&level| ((level as i32) - (clamped as i32)).abs())`: first
element of least absolute distance, `none` on an empty list. -/
def minByAbsDist (levels : List Nat) (target : Nat) : Option Nat :=
  levels.foldl (fun acc l =>
    match acc with
    | none => some l
    | some b =>
      if ((l : Int) - (target : Int)).natAbs < ((b : Int) - (target : Int)).natAbs
      then some l else acc) none

/-- Pinch zoom's new cell size: scale the cell size recorded at pinch start
by the distance ratio, truncate within `[1, 500]`, clamp to the zoom range,
and snap to the nearest pinch ladder entry. -/
def pinchSelectedCellSize (initial_cs : Nat) (zoom_factor : ℚ) : Nat :=
  let new_cell_size := (ratTrunc (min (max ((initial_cs : ℚ) * zoom_factor) 1) 500)).toNat
  let clamped := max wheelMinCellSize (min new_cell_size wheelMaxCellSize)
  (minByAbsDist pinchZoomLevels clamped).getD clamped

/-- Pinch zoom's effect on `offset_y`: when the snapped cell size differs
from the current one, keep the world cell under the pinch center fixed and
clamp with `.max(0.0)`; otherwise leave the offset untouched. -/
def pinchNewOffsetY (offsetY : ℚ) (current_cs initial_cs : Nat)
    (zoom_factor center_y : ℚ) (window_h : Nat) : ℚ :=
  if pinchSelectedCellSize initial_cs zoom_factor ≠ current_cs then
    max (offsetY + center_y / (window_h : ℚ) * ((window_h : ℚ) / (current_cs : ℚ))
      - center_y / (window_h : ℚ)
        * ((window_h : ℚ) / (pinchSelectedCellSize initial_cs zoom_factor : ℚ))) 0
  else offsetY

/-- Window resize (`Resized`): when the window's top edge moved, shift the
offset to keep the bottom edge fixed and clamp with `.max(0.0)`; otherwise
`offset_y` is untouched. -/
def resizeNewOffsetY (offsetY : ℚ) (topMoved : Bool) (oldH newH cs : Nat) : ℚ :=
  if topMoved then
    max (offsetY + (oldH : ℚ) / (cs : ℚ) - (newH : ℚ) / (cs : ℚ)) 0
  else offsetY

/-- `reset_viewport` sets `offset_y = 0.0`. -/
def resetOffsetY : ℚ := 0

theorem wheelMinCellSize_eq : wheelMinCellSize = 1 := by
  have h1 : ((DEFAULT_CELL_SIZE : ℚ) * ZOOM_MIN) = 1 := by
    rw [DEFAULT_CELL_SIZE, ZOOM_MIN]
    norm_num
  rw [wheelMinCellSize, h1, max_self, ratTrunc, if_pos (by norm_num), Int.floor_one]
  rfl

theorem wheelMaxCellSize_eq : wheelMaxCellSize = 500 := by
  have h1 : ((DEFAULT_CELL_SIZE : ℚ) * ZOOM_MAX) = 500 := by
    rw [DEFAULT_CELL_SIZE, ZOOM_MAX]
    norm_num
  have h2 : ⌊(500 : ℚ)⌋ = 500 := by
    rw [show (500 : ℚ) = ((500 : Int) : ℚ) by norm_num]
    exact Int.floor_intCast 500
  rw [wheelMaxCellSize, h1, ratTrunc, if_pos (by norm_num), h2]
  rfl

theorem wheelZoomLevels_eq : wheelZoomLevels =
    [2, 3, 4, 5, 6, 7, 8, 9, 10, 12, 14, 16, 18, 20, 24, 28, 32, 36, 40,
     45, 50, 60, 70, 80, 90, 100, 120, 140, 160, 180, 200,
     250, 300, 350, 400, 450, 500] := by
  rw [wheelZoomLevels, wheelMinCellSize_eq, wheelMaxCellSize_eq]
  rfl

/-- A concrete wheel zoom-out step: from cell size 10, one notch down the
ladder lands on 9. -/
theorem handleZoomNewCellSize_10_neg1 : handleZoomNewCellSize 10 (-1) = 9 := by
  simp only [handleZoomNewCellSize, wheelZoomLevels_eq]
  rw [if_neg (by norm_num : ¬(0 : ℚ) < -1)]
  rfl

theorem pinchZoomLevels_eq : pinchZoomLevels =
    [1, 2, 3, 4, 5, 6, 7, 8, 9, 10, 12, 15, 20, 25, 30, 40, 50, 75, 100,
     150, 200, 300, 400, 500] := by
  rw [pinchZoomLevels, wheelMinCellSize_eq, wheelMaxCellSize_eq]
  rfl

/-- A concrete pinch zoom-out: cell size 10 at distance ratio 1/2 snaps to
ladder entry 5. -/
theorem pinchSelectedCellSize_10_half : pinchSelectedCellSize 10 (1 / 2) = 5 := by
  have h1 : ratTrunc (min (max (((10 : Nat) : ℚ) * (1 / 2)) 1) 500) = 5 := by
    have h2 : (((10 : Nat) : ℚ) * (1 / 2)) = 5 := by norm_num
    rw [h2, max_eq_left (by norm_num), min_eq_left (by norm_num), ratTrunc,
      if_pos (by norm_num), show (5 : ℚ) = ((5 : Int) : ℚ) by norm_num]
    exact Int.floor_intCast 5
  simp only [pinchSelectedCellSize]
  rw [h1, wheelMinCellSize_eq, wheelMaxCellSize_eq, pinchZoomLevels_eq]
  rfl

/-- C10: every viewport mutation that writes `offset_y` — mouse drag, touch
pan, wheel zoom, pinch zoom, window resize, viewport reset — preserves
`offset_y ≥ 0`, and for each mutation, whenever the raw (unclamped) value it
would store is negative the stored `offset_y` is exactly 0. -/
theorem offset_y_clamped_by_every_mutation :
    (∀ y d w cs z : ℚ, 0 ≤ dragNewOffsetY y d w cs z ∧
      (y + -(d / w) * ((w / cs) / z) < 0 → dragNewOffsetY y d w cs z = 0)) ∧
    (∀ y d w cs : ℚ, 0 ≤ touchPanNewOffsetY y d w cs ∧
      (y + -(d / w) * (w / cs) < 0 → touchPanNewOffsetY y d w cs = 0)) ∧
    (∀ (y : ℚ) (old_cs : Nat) (delta cy : ℚ) (wh : Nat),
      (0 ≤ y → 0 ≤ handleZoomNewOffsetY y old_cs delta cy wh) ∧
      (handleZoomNewCellSize old_cs delta ≠ old_cs →
        y + cy / (wh : ℚ) * ((wh : ℚ) / (old_cs : ℚ))
          - cy / (wh : ℚ) * ((wh : ℚ) / (handleZoomNewCellSize old_cs delta : ℚ)) < 0 →
        handleZoomNewOffsetY y old_cs delta cy wh = 0)) ∧
    (∀ (y : ℚ) (ccs ics : Nat) (zf cy : ℚ) (wh : Nat),
      (0 ≤ y → 0 ≤ pinchNewOffsetY y ccs ics zf cy wh) ∧
      (pinchSelectedCellSize ics zf ≠ ccs →
        y + cy / (wh : ℚ) * ((wh : ℚ) / (ccs : ℚ))
          - cy / (wh : ℚ) * ((wh : ℚ) / (pinchSelectedCellSize ics zf : ℚ)) < 0 →
        pinchNewOffsetY y ccs ics zf cy wh = 0)) ∧
    (∀ (y : ℚ) (tm : Bool) (oh nh cs : Nat), 0 ≤ y →
      0 ≤ resizeNewOffsetY y tm oh nh cs ∧
      (tm = true → y + (oh : ℚ) / (cs : ℚ) - (nh : ℚ) / (cs : ℚ) < 0 →
        resizeNewOffsetY y tm oh nh cs = 0)) ∧
    resetOffsetY = 0 := by
  refine ⟨?_, ?_, ?_, ?_, ?_, rfl⟩
  · intro y d w cs z
    exact ⟨le_max_right _ _, fun h => max_eq_right h.le⟩
  · intro y d w cs
    exact ⟨le_max_right _ _, fun h => max_eq_right h.le⟩
  · intro y old_cs delta cy wh
    constructor
    · intro hy
      rw [handleZoomNewOffsetY]
      by_cases hc : handleZoomNewCellSize old_cs delta ≠ old_cs
      · rw [if_pos hc]
        exact le_max_right _ _
      · rw [if_neg hc]
        exact hy
    · intro hc h
      rw [handleZoomNewOffsetY, if_pos hc]
      exact max_eq_right h.le
  · intro y ccs ics zf cy wh
    constructor
    · intro hy
      rw [pinchNewOffsetY]
      by_cases hc : pinchSelectedCellSize ics zf ≠ ccs
      · rw [if_pos hc]
        exact le_max_right _ _
      · rw [if_neg hc]
        exact hy
    · intro hc h
      rw [pinchNewOffsetY, if_pos hc]
      exact max_eq_right h.le
  · intro y tm oh nh cs hy
    cases tm
    · exact ⟨hy, fun ht _ => by cases ht⟩
    · exact ⟨le_max_right _ _, fun _ h => max_eq_right h.le⟩

theorem offset_y_clamped_by_every_mutation_witness :
    0 ≤ dragNewOffsetY 0 5 500 10 1 ∧
    dragNewOffsetY 0 5 500 10 1 = 0 ∧
    touchPanNewOffsetY 0 5 500 10 = 0 ∧
    0 ≤ handleZoomNewOffsetY 3 10 1 250 500 ∧
    handleZoomNewCellSize 10 (-1) ≠ 10 ∧
    handleZoomNewOffsetY 0 10 (-1) 250 500 = 0 ∧
    0 ≤ pinchNewOffsetY 3 10 10 2 250 500 ∧
    pinchSelectedCellSize 10 (1 / 2) ≠ 10 ∧
    pinchNewOffsetY 0 10 10 (1 / 2) 250 500 = 0 ∧
    0 ≤ resizeNewOffsetY 3 true 500 600 10 ∧
    resizeNewOffsetY 0 true 500 600 10 = 0 ∧
    resetOffsetY = 0 :=
  ⟨(offset_y_clamped_by_every_mutation.1 0 5 500 10 1).1,
   (offset_y_clamped_by_every_mutation.1 0 5 500 10 1).2 (by norm_num),
   (offset_y_clamped_by_every_mutation.2.1 0 5 500 10).2 (by norm_num),
   (offset_y_clamped_by_every_mutation.2.2.1 3 10 1 250 500).1 (by norm_num),
   (by rw [handleZoomNewCellSize_10_neg1]; decide),
   (offset_y_clamped_by_every_mutation.2.2.1 0 10 (-1) 250 500).2
     (by rw [handleZoomNewCellSize_10_neg1]; decide)
     (by rw [handleZoomNewCellSize_10_neg1]; norm_num),
   (offset_y_clamped_by_every_mutation.2.2.2.1 3 10 10 2 250 500).1 (by norm_num),
   (by rw [pinchSelectedCellSize_10_half]; decide),
   (offset_y_clamped_by_every_mutation.2.2.2.1 0 10 10 (1 / 2) 250 500).2
     (by rw [pinchSelectedCellSize_10_half]; decide)
     (by rw [pinchSelectedCellSize_10_half]; norm_num),
   (offset_y_clamped_by_every_mutation.2.2.2.2.1 3 true 500 600 10 (by norm_num)).1,
   (offset_y_clamped_by_every_mutation.2.2.2.2.1 0 true 500 600 10 (by norm_num)).2
     rfl (by norm_num),
   offset_y_clamped_by_every_mutation.2.2.2.2.2⟩

/-! ## Refinement: cached tile assembly vs monolithic computation
(`run_ca_with_cache` vs `run_ca` in `compute.rs`) -/

theorem mem_intRange (lo hi x : Int) : x ∈ intRange lo hi ↔ lo ≤ x ∧ x ≤ hi := by
  simp only [intRange, List.mem_map, List.mem_range]
  constructor
  · rintro ⟨k, hk, rfl⟩
    omega
  · intro h
    exact ⟨(x - lo).toNat, by omega, by omega⟩

theorem intRange_nodup (lo hi : Int) : (intRange lo hi).Nodup := by
  refine List.Nodup.map ?_ (List.nodup_range _)
  intro a b h
  have h' : lo + (a : Int) = lo + (b : Int) := h
  omega

theorem nodup_pairList (l₁ l₂ : List Int) (h₁ : l₁.Nodup) (h₂ : l₂.Nodup) :
    (l₁.flatMap (fun a => l₂.map (fun b => (a, b)))).Nodup := by
  induction l₁ with
  | nil => simp
  | cons a l ih =>
      rw [List.nodup_cons] at h₁
      rw [List.flatMap_cons, List.nodup_append]
      refine ⟨List.Nodup.map ?_ h₂, ih h₁.2, ?_⟩
      · intro x y h
        simpa using h
      · intro z hz hz'
        rw [List.mem_map] at hz
        obtain ⟨b, _, rfl⟩ := hz
        rw [List.mem_flatMap] at hz'
        obtain ⟨a', ha', hmem⟩ := hz'
        rw [List.mem_map] at hmem
        obtain ⟨b', _, heq⟩ := hmem
        have ha : a' = a := ((Prod.mk.injEq _ _ _ _).mp heq).1
        exact h₁.1 (ha ▸ ha')

theorem tilePairs_nodup (ty0 ty1 tx0 tx1 : Int) : (tilePairs ty0 ty1 tx0 tx1).Nodup :=
  nodup_pairList _ _ (intRange_nodup ty0 ty1) (intRange_nodup tx0 tx1)

theorem mem_tilePairs (ty0 ty1 tx0 tx1 ty tx : Int) :
    (ty, tx) ∈ tilePairs ty0 ty1 tx0 tx1 ↔
      (ty0 ≤ ty ∧ ty ≤ ty1) ∧ tx0 ≤ tx ∧ tx ≤ tx1 := by
  rw [tilePairs]
  simp only [List.mem_flatMap, List.mem_map, mem_intRange]
  constructor
  · rintro ⟨a, ha, b, hb, heq⟩
    obtain ⟨h1, h2⟩ := Prod.mk.injEq a b ty tx |>.mp heq
    subst h1
    subst h2
    exact ⟨ha, hb⟩
  · rintro ⟨⟨h1, h2⟩, h3, h4⟩
    exact ⟨ty, ⟨h1, h2⟩, tx, ⟨h3, h4⟩, rfl⟩

/-- Bounds characterising Euclidean division by a positive divisor. -/
theorem ediv_bounds (v T : Int) (hT : 0 < T) :
    Int.ediv v T * T ≤ v ∧ v < Int.ediv v T * T + T := by
  have hdef : Int.ediv v T = v / T := rfl
  have h1 := Int.ediv_add_emod v T
  have h2 := Int.emod_nonneg v (ne_of_gt hT)
  have h3 := Int.emod_lt_of_pos v hT
  rw [hdef]
  constructor
  · linarith
  · linarith

/-- Euclidean division is the unique integer with those bounds. -/
theorem ediv_unique (v T t : Int) (hT : 0 < T) (h1 : t * T ≤ v) (h2 : v < t * T + T) :
    Int.ediv v T = t := by
  obtain ⟨hb1, hb2⟩ := ediv_bounds v T hT
  have ht1 : t < Int.ediv v T + 1 := by
    by_contra hcon
    push_neg at hcon
    have hmul : (Int.ediv v T + 1) * T ≤ t * T :=
      mul_le_mul_of_nonneg_right hcon (le_of_lt hT)
    have hexp : (Int.ediv v T + 1) * T = Int.ediv v T * T + T := by ring
    linarith
  have ht2 : Int.ediv v T < t + 1 := by
    by_contra hcon
    push_neg at hcon
    have hmul : (t + 1) * T ≤ Int.ediv v T * T :=
      mul_le_mul_of_nonneg_right hcon (le_of_lt hT)
    have hexp : (t + 1) * T = t * T + T := by ring
    linarith
  omega

/-- A fold of index-wise operations that all leave index `i` unchanged
leaves index `i` unchanged. -/
theorem foldl_fix_idx {α : Type} (f : (Nat → Nat) → α → Nat → Nat) (i : Nat) :
    ∀ (l : List α) (b : Nat → Nat),
      (∀ (b' : Nat → Nat) (a : α), a ∈ l → f b' a i = b' i) → l.foldl f b i = b i := by
  intro l
  induction l with
  | nil => intro b _; rfl
  | cons a l ih =>
      intro b h
      rw [List.foldl_cons,
        ih (f b a) (fun b' a' ha' => h b' a' (List.mem_cons_of_mem a ha'))]
      exact h b a (List.mem_cons_self a l)

/-- If one element of the fold always writes `V` at index `i` and every other
element leaves index `i` unchanged, the fold ends with `V` at index `i`. -/
theorem foldl_unique_write_idx {α : Type} (f : (Nat → Nat) → α → Nat → Nat)
    (i V : Nat) (a₀ : α) :
    ∀ (l : List α) (b : Nat → Nat), a₀ ∈ l →
      (∀ b', f b' a₀ i = V) →
      (∀ (b' : Nat → Nat) (a : α), a ∈ l → a ≠ a₀ → f b' a i = b' i) →
      l.foldl f b i = V := by
  intro l
  induction l with
  | nil =>
      intro b hmem
      exact absurd hmem (List.not_mem_nil a₀)
  | cons a l ih =>
      intro b hmem hw hs
      rw [List.foldl_cons]
      by_cases hal : a₀ ∈ l
      · exact ih (f b a) hal hw
          (fun b' a' h1 h2 => hs b' a' (List.mem_cons_of_mem a h1) h2)
      · have ha : a = a₀ := by
          rcases List.mem_cons.mp hmem with h | h
          · exact h.symm
          · exact absurd h hal
        subst ha
        rw [foldl_fix_idx f i l (f b a)
          (fun b' a' h1 => hs b' a' (List.mem_cons_of_mem a h1)
            (fun he => hal (by rw [← he]; exact h1)))]
        exact hw b

theorem buildInitialRow_length (sw : Nat) (base : Int) (state : Option (List Char)) :
    (buildInitialRow sw base state).length = sw := by
  cases state with
  | some s => simp [buildInitialRow, writeChars_length]
  | none =>
      rw [buildInitialRow]
      split
      · simp
      · simp

theorem tileInitialRow_length (tile_x tile_y : Int) (T : Nat) (state : Option (List Char)) :
    (tileInitialRow tile_x tile_y T state).length = tileSimWidth tile_y T := by
  rw [tileInitialRow, buildInitialRow_length]

/-- Phase 1 of `run_ca_with_cache`, run on fresh keys with enough capacity:
existing entries survive and every covering tile ends up cached with its
freshly produced buffer. -/
theorem materializePhase_spec (rule T : Nat) (state : Option (List Char)) :
    ∀ (pairs : List (Int × Int)) (c : TileCache TileKeyGrid TileM),
      (pairs.map (fun p => TileKeyGrid.new rule state p.2 p.1)).Nodup →
      (∀ p ∈ pairs, lookupA c.tiles (TileKeyGrid.new rule state p.2 p.1) = none) →
      c.tiles.length + pairs.length ≤ c.max_tiles →
      (∀ (k : TileKeyGrid) (v : TileM), lookupA c.tiles k = some v →
        lookupA (materializePhase rule T state pairs c).tiles k = some v) ∧
      (∀ p ∈ pairs, lookupA (materializePhase rule T state pairs c).tiles
          (TileKeyGrid.new rule state p.2 p.1)
        = some (computeTile rule p.2 p.1 T state)) := by
  intro pairs
  induction pairs with
  | nil =>
      intro c _ _ _
      exact ⟨fun k v h => h, fun p hp => absurd hp (List.not_mem_nil p)⟩
  | cons p ps ih =>
      intro c hnodup hfresh hcap
      have hk0 : (c.get (TileKeyGrid.new rule state p.2 p.1)).1 = none := by
        rw [(get_spec c _).1, hfresh p (List.mem_cons_self p ps)]
      have htl : ((c.get (TileKeyGrid.new rule state p.2 p.1)).2).tiles = c.tiles :=
        (get_spec c _).2.1
      have hmx : ((c.get (TileKeyGrid.new rule state p.2 p.1)).2).max_tiles = c.max_tiles :=
        (get_spec c _).2.2
      have hlc : (p :: ps).length = ps.length + 1 := rfl
      have hins := insert_spec_fresh ((c.get (TileKeyGrid.new rule state p.2 p.1)).2)
        (TileKeyGrid.new rule state p.2 p.1) (computeTile rule p.2 p.1 T state)
        (by rw [htl]; exact hfresh p (List.mem_cons_self p ps))
        (by rw [htl, hmx]; omega)
      have hstep : materializePhase rule T state (p :: ps) c
          = materializePhase rule T state ps
            (((c.get (TileKeyGrid.new rule state p.2 p.1)).2).insert
              (TileKeyGrid.new rule state p.2 p.1) (computeTile rule p.2 p.1 T state)) := by
        show materializePhase rule T state ps
            (if (c.get (TileKeyGrid.new rule state p.2 p.1)).1.isNone then
              ((c.get (TileKeyGrid.new rule state p.2 p.1)).2).insert
                (TileKeyGrid.new rule state p.2 p.1) (computeTile rule p.2 p.1 T state)
            else ((c.get (TileKeyGrid.new rule state p.2 p.1)).2)) = _
        rw [if_pos (by rw [hk0]; rfl)]
      have hc1t : (((c.get (TileKeyGrid.new rule state p.2 p.1)).2).insert
            (TileKeyGrid.new rule state p.2 p.1) (computeTile rule p.2 p.1 T state)).tiles
          = (TileKeyGrid.new rule state p.2 p.1, computeTile rule p.2 p.1 T state)
            :: c.tiles := by
        rw [hins]
        show (TileKeyGrid.new rule state p.2 p.1, computeTile rule p.2 p.1 T state)
            :: ((c.get (TileKeyGrid.new rule state p.2 p.1)).2).tiles = _
        rw [htl]
      have hc1m : (((c.get (TileKeyGrid.new rule state p.2 p.1)).2).insert
            (TileKeyGrid.new rule state p.2 p.1) (computeTile rule p.2 p.1 T state)).max_tiles
          = c.max_tiles := by
        rw [hins]
        show ((c.get (TileKeyGrid.new rule state p.2 p.1)).2).max_tiles = c.max_tiles
        exact hmx
      rw [List.map_cons, List.nodup_cons] at hnodup
      have hfresh' : ∀ q ∈ ps,
          lookupA (((c.get (TileKeyGrid.new rule state p.2 p.1)).2).insert
            (TileKeyGrid.new rule state p.2 p.1)
            (computeTile rule p.2 p.1 T state)).tiles
            (TileKeyGrid.new rule state q.2 q.1) = none := by
        intro q hq
        have hne : TileKeyGrid.new rule state p.2 p.1 ≠ TileKeyGrid.new rule state q.2 q.1 := by
          intro he
          apply hnodup.1
          rw [he]
          exact List.mem_map_of_mem (fun p' => TileKeyGrid.new rule state p'.2 p'.1) hq
        rw [hc1t, lookupA_cons, if_neg hne]
        exact hfresh q (List.mem_cons_of_mem p hq)
      have hcap' : (((c.get (TileKeyGrid.new rule state p.2 p.1)).2).insert
            (TileKeyGrid.new rule state p.2 p.1)
            (computeTile rule p.2 p.1 T state)).tiles.length + ps.length
          ≤ (((c.get (TileKeyGrid.new rule state p.2 p.1)).2).insert
            (TileKeyGrid.new rule state p.2 p.1)
            (computeTile rule p.2 p.1 T state)).max_tiles := by
        rw [hc1t, hc1m, List.length_cons]
        omega
      obtain ⟨ihpres, ihcov⟩ := ih _ hnodup.2 hfresh' hcap'
      constructor
      · intro k v hkv
        rw [hstep]
        apply ihpres
        have hne : TileKeyGrid.new rule state p.2 p.1 ≠ k := by
          intro he
          have h0 := hfresh p (List.mem_cons_self p ps)
          rw [he] at h0
          rw [h0] at hkv
          exact Option.noConfusion hkv
        rw [hc1t, lookupA_cons, if_neg hne]
        exact hkv
      · intro q hq
        rcases List.mem_cons.mp hq with he | hq'
        · subst he
          rw [hstep]
          apply ihpres
          rw [hc1t, lookupA_cons, if_pos rfl]
        · rw [hstep]
          exact ihcov q hq'

/-- Phase 2 of `run_ca_with_cache`, when every covering tile is cached:
no `expect` panic occurs and the assembled buffer is the pure fold of the
per-tile copies over the freshly produced tiles. -/
theorem assemblePhase_eq_pure (rule T : Nat) (state : Option (List Char))
    (vxs vxe vys vye : Int) (padding simw iterations : Nat) :
    ∀ (pairs : List (Int × Int)) (buf : Nat → Nat) (c : TileCache TileKeyGrid TileM),
      (∀ p ∈ pairs, lookupA c.tiles (TileKeyGrid.new rule state p.2 p.1)
        = some (computeTile rule p.2 p.1 T state)) →
      ∃ c', assemblePhase rule T state pairs vxs vxe vys vye padding simw iterations
          (some (buf, c))
        = some (pairs.foldl (fun b p =>
            assembleTile b (computeTile rule p.2 p.1 T state) p.1 p.2 T
              vxs vxe vys vye padding simw iterations) buf, c') := by
  intro pairs
  induction pairs with
  | nil =>
      intro buf c _
      exact ⟨c, rfl⟩
  | cons p ps ih =>
      intro buf c hc
      have hg1 : (c.get (TileKeyGrid.new rule state p.2 p.1)).1
          = some (computeTile rule p.2 p.1 T state) := by
        rw [(get_spec c _).1]
        exact hc p (List.mem_cons_self p ps)
      have hg2 : ((c.get (TileKeyGrid.new rule state p.2 p.1)).2).tiles = c.tiles :=
        (get_spec c _).2.1
      rcases hget : c.get (TileKeyGrid.new rule state p.2 p.1) with ⟨o, c2⟩
      have ho : o = some (computeTile rule p.2 p.1 T state) := by
        have h1 := hg1
        rw [hget] at h1
        exact h1
      subst ho
      have hc2t : c2.tiles = c.tiles := by
        have h2 := hg2
        rw [hget] at h2
        exact h2
      have hstep : assemblePhase rule T state (p :: ps) vxs vxe vys vye padding simw
            iterations (some (buf, c))
          = assemblePhase rule T state ps vxs vxe vys vye padding simw iterations
            (some (assembleTile buf (computeTile rule p.2 p.1 T state) p.1 p.2 T
              vxs vxe vys vye padding simw iterations, c2)) := by
        show assemblePhase rule T state ps vxs vxe vys vye padding simw iterations
            (match c.get (TileKeyGrid.new rule state p.2 p.1) with
              | (none, _) => none
              | (some tile, c') =>
                  some (assembleTile buf tile p.1 p.2 T vxs vxe vys vye padding simw
                    iterations, c')) = _
        rw [hget]
      have hc' : ∀ q ∈ ps, lookupA c2.tiles (TileKeyGrid.new rule state q.2 q.1)
          = some (computeTile rule q.2 q.1 T state) := by
        intro q hq
        rw [hc2t]
        exact hc q (List.mem_cons_of_mem p hq)
      obtain ⟨c', hce⟩ := ih (assembleTile buf (computeTile rule p.2 p.1 T state) p.1 p.2 T
        vxs vxe vys vye padding simw iterations) c2 hc'
      refine ⟨c', ?_⟩
      rw [hstep]
      exact hce

/-- Reading one cell of a produced tile buffer in row/column form. -/
theorem computeTile_buffer_at (rule : Nat) (tx ty : Int) (T : Nat)
    (state : Option (List Char)) (gt col : Nat) (hcol : col < tileSimWidth ty T) :
    (computeTile rule tx ty T state).buffer (gt * tileSimWidth ty T + col)
      = if gt < T then
          (simRows rule (tileInitialRow tx ty T state)
            (tileGenOffset ty T + gt)).getD col 0
        else 0 := by
  show (if (gt * tileSimWidth ty T + col) / tileSimWidth ty T < T then
      (simRows rule (tileInitialRow tx ty T state)
        (tileGenOffset ty T
          + (gt * tileSimWidth ty T + col) / tileSimWidth ty T)).getD
        ((gt * tileSimWidth ty T + col) % tileSimWidth ty T) 0
    else 0) = _
  rw [flat_div _ _ _ hcol, flat_mod _ _ _ hcol]

/-- A tile that does not contain the viewport cell `(row r, column c)` leaves
that cell of the output buffer untouched during assembly. -/
theorem assembleTile_not_covering (b : Nat → Nat) (tile : TileM) (ty tx : Int) (T : Nat)
    (vxs vxe vys vye : Int) (padding simw iterations : Nat) (r c : Nat)
    (hT : 0 < T) (hcol : padding + c < simw)
    (hnc : Int.ediv (vys + (r : Int)) (T : Int) ≠ ty ∨
      Int.ediv (vxs + (c : Int)) (T : Int) ≠ tx) :
    assembleTile b tile ty tx T vxs vxe vys vye padding simw iterations
      (r * simw + (padding + c)) = b (r * simw + (padding + c)) := by
  simp only [assembleTile]
  by_cases hearly : min vxe (tx * (T : Int) + T) ≤ max vxs (tx * (T : Int)) ∨
      min vye (ty * (T : Int) + T) ≤ max vys (ty * (T : Int))
  · rw [if_pos hearly]
  · rw [if_neg hearly]
    refine foldl_fix_idx _ _ _ b ?_
    intro b' g hg
    rw [mem_intRange] at hg
    by_cases h1 : T ≤ (g - ty * (T : Int)).toNat ∨ iterations ≤ (g - vys).toNat
    · rw [if_pos h1]
    · rw [if_neg h1]
      by_cases h2 : tile.simulated_width <
          (max vxs (tx * (T : Int)) - tx * (T : Int)).toNat + tile.padding_left
            + (min vxe (tx * (T : Int) + T) - max vxs (tx * (T : Int))).toNat
      · rw [if_pos h2]
      · rw [if_neg h2]
        by_cases h3 : simw < (max vxs (tx * (T : Int)) - vxs).toNat + padding
            + (min vxe (tx * (T : Int) + T) - max vxs (tx * (T : Int))).toNat
        · rw [if_pos h3]
        · rw [if_neg h3]
          simp only [writeRange]
          have hmiss : ¬((g - vys).toNat * simw
                + ((max vxs (tx * (T : Int)) - vxs).toNat + padding)
                ≤ r * simw + (padding + c)
              ∧ r * simw + (padding + c) < (g - vys).toNat * simw
                + ((max vxs (tx * (T : Int)) - vxs).toNat + padding)
                + (min vxe (tx * (T : Int) + T) - max vxs (tx * (T : Int))).toNat) := by
            rintro ⟨hlo, hhi⟩
            push_neg at h1 h3 hearly
            set GV := (g - vys).toNat with hGV
            set XO := (max vxs (tx * (T : Int)) - vxs).toNat with hXO
            set SW := (min vxe (tx * (T : Int) + (T : Int))
              - max vxs (tx * (T : Int))).toNat with hSW
            rcases Nat.lt_trichotomy GV r with hlt | heq | hgt2
            · have h5 : (GV + 1) * simw ≤ r * simw := Nat.mul_le_mul_right simw hlt
              have h6 : (GV + 1) * simw = GV * simw + simw := by ring
              linarith [h3, hlo, hhi]
            · have hxole : XO + padding ≤ padding + c ∧ padding + c < XO + padding + SW := by
                constructor
                · have h4 := hlo
                  rw [heq] at h4
                  omega
                · have h4 := hhi
                  rw [heq] at h4
                  omega
              have h7 : vys ≤ g := le_trans (le_max_left vys (ty * (T : Int))) hg.1
              have hgrow : g = vys + (r : Int) := by omega
              have hty : Int.ediv (vys + (r : Int)) (T : Int) = ty := by
                apply ediv_unique _ _ _ (by exact_mod_cast hT)
                · have h8 : ty * (T : Int) ≤ g :=
                    le_trans (le_max_right vys (ty * (T : Int))) hg.1
                  rw [← hgrow]
                  exact h8
                · have h10 : min vye (ty * (T : Int) + (T : Int))
                      ≤ ty * (T : Int) + (T : Int) := min_le_right _ _
                  have h9 := hg.2
                  rw [← hgrow]
                  omega
              have htx : Int.ediv (vxs + (c : Int)) (T : Int) = tx := by
                apply ediv_unique _ _ _ (by exact_mod_cast hT)
                · have h11 : XO ≤ c := by omega
                  have h12 : vxs ≤ max vxs (tx * (T : Int)) := le_max_left _ _
                  have h13 : tx * (T : Int) ≤ max vxs (tx * (T : Int)) := le_max_right _ _
                  omega
                · have h14 : c < XO + SW := by omega
                  have h15 : min vxe (tx * (T : Int) + (T : Int))
                      ≤ tx * (T : Int) + (T : Int) := min_le_right _ _
                  have h12 : vxs ≤ max vxs (tx * (T : Int)) := le_max_left _ _
                  have h16 := hearly.1
                  omega
              rcases hnc with h | h
              · exact h hty
              · exact h htx
            · have h5 : (r + 1) * simw ≤ GV * simw := Nat.mul_le_mul_right simw hgt2
              have h6 : (r + 1) * simw = r * simw + simw := by ring
              linarith [hlo, hcol]
          rw [if_neg hmiss]

set_option maxHeartbeats 1600000 in
/-- The unique tile containing viewport cell `(row r, column c)` writes
exactly the infinite-world value of that cell during assembly. -/
theorem assembleTile_covering (rule : Nat) (state : Option (List Char))
    (D I W T : Nat) (ho : Int) (r c : Nat) (ty tx : Int)
    (hT : 0 < T) (hr : r < I) (hc : c < W) (hty0 : 0 ≤ ty)
    (hy1 : ty * (T : Int) ≤ (D : Int) + (r : Int))
    (hy2 : (D : Int) + (r : Int) < ty * (T : Int) + T)
    (hx1 : tx * (T : Int) ≤ ho + (c : Int))
    (hx2 : ho + (c : Int) < tx * (T : Int) + T) (b : Nat → Nat) :
    assembleTile b (computeTile rule tx ty T state) ty tx T
        ho (ho + (W : Int)) (D : Int) ((D + I : Nat) : Int)
        (D + I) (W + 2 * (D + I)) I
        (r * (W + 2 * (D + I)) + ((D + I) + c))
      = worldRow rule (worldInit state) (D + r) (ho + (c : Int)) := by
  have htyT : 0 ≤ ty * (T : Int) := mul_nonneg hty0 (by positivity)
  have hP : (tilePadding ty T : Int) = ty * (T : Int) + T := by
    rw [tilePadding]
    omega
  have hpadL : (computeTile rule tx ty T state).padding_left = tilePadding ty T := rfl
  have hsimW : (computeTile rule tx ty T state).simulated_width = tileSimWidth ty T := rfl
  have htsw : tileSimWidth ty T = T + 2 * tilePadding ty T := rfl
  simp only [assembleTile, hpadL, hsimW]
  have hcx0le : max ho (tx * (T : Int)) ≤ ho + (c : Int) := max_le (by omega) hx1
  have hcx1gt : ho + (c : Int) < min (ho + (W : Int)) (tx * (T : Int) + T) :=
    lt_min (by omega) hx2
  have hcg0le : max (D : Int) (ty * (T : Int)) ≤ (D : Int) + (r : Int) :=
    max_le (by omega) hy1
  have hcg1gt : (D : Int) + (r : Int) < min ((D + I : Nat) : Int) (ty * (T : Int) + T) :=
    lt_min (by omega) hy2
  rw [if_neg (by push_neg; exact ⟨lt_of_le_of_lt hcx0le hcx1gt,
    lt_of_le_of_lt hcg0le hcg1gt⟩)]
  refine foldl_unique_write_idx _ _ _ ((D : Int) + (r : Int)) _ b
    ((mem_intRange _ _ _).mpr ⟨hcg0le, by omega⟩) ?_ ?_
  · -- the row of the target cell: all guards pass and the copy writes the cell
    intro b'
    have hgv : ((D : Int) + (r : Int) - (D : Int)).toNat = r := by omega
    have hgtlt : ((D : Int) + (r : Int) - ty * (T : Int)).toNat < T := by omega
    rw [if_neg (by push_neg; exact ⟨hgtlt, by omega⟩)]
    have hg2 : (max ho (tx * (T : Int)) - tx * (T : Int)).toNat + tilePadding ty T
        + (min (ho + (W : Int)) (tx * (T : Int) + T) - max ho (tx * (T : Int))).toNat
        ≤ tileSimWidth ty T := by
      rw [htsw]
      omega
    rw [if_neg (Nat.not_lt.mpr hg2)]
    have hg3 : (max ho (tx * (T : Int)) - ho).toNat + (D + I)
        + (min (ho + (W : Int)) (tx * (T : Int) + T) - max ho (tx * (T : Int))).toNat
        ≤ W + 2 * (D + I) := by omega
    rw [if_neg (Nat.not_lt.mpr hg3)]
    simp only [writeRange]
    rw [hgv]
    have hin : r * (W + 2 * (D + I)) + ((max ho (tx * (T : Int)) - ho).toNat + (D + I))
          ≤ r * (W + 2 * (D + I)) + (D + I + c)
        ∧ r * (W + 2 * (D + I)) + (D + I + c)
          < r * (W + 2 * (D + I)) + ((max ho (tx * (T : Int)) - ho).toNat + (D + I))
            + (min (ho + (W : Int)) (tx * (T : Int) + T) - max ho (tx * (T : Int))).toNat := by
      constructor
      · omega
      · omega
    rw [if_pos hin]
    have harg : ((D : Int) + (r : Int) - ty * (T : Int)).toNat * tileSimWidth ty T
          + ((max ho (tx * (T : Int)) - tx * (T : Int)).toNat + tilePadding ty T)
          + (r * (W + 2 * (D + I)) + (D + I + c)
            - (r * (W + 2 * (D + I)) + ((max ho (tx * (T : Int)) - ho).toNat + (D + I))))
        = ((D : Int) + (r : Int) - ty * (T : Int)).toNat * tileSimWidth ty T
          + (tilePadding ty T + (ho + (c : Int) - tx * (T : Int)).toNat) := by
      omega
    rw [harg]
    have hcollt : tilePadding ty T + (ho + (c : Int) - tx * (T : Int)).toNat
        < tileSimWidth ty T := by
      rw [htsw]
      omega
    rw [computeTile_buffer_at rule tx ty T state _ _ hcollt, if_pos hgtlt]
    have hgen : tileGenOffset ty T + ((D : Int) + (r : Int) - ty * (T : Int)).toNat
        = D + r := by
      rw [tileGenOffset]
      omega
    rw [hgen]
    have h0 : ∀ p : Nat, p < (tileInitialRow tx ty T state).length →
        (tileInitialRow tx ty T state).getD p 0
          = worldInit state ((p : Int) - tileBaseOffset tx ty T) := by
      intro p hp
      rw [tileInitialRow_length] at hp
      exact buildInitialRow_world _ _ _ p hp
    have hlen := tileInitialRow_length tx ty T state
    have happ := simRows_eq_worldRow rule (tileInitialRow tx ty T state) (worldInit state)
      (tileBaseOffset tx ty T) h0 (D + r)
      (tilePadding ty T + (ho + (c : Int) - tx * (T : Int)).toNat)
      (by omega) (by omega)
    rw [happ]
    have hargeq : (((tilePadding ty T + (ho + (c : Int) - tx * (T : Int)).toNat : Nat)) : Int)
        - tileBaseOffset tx ty T = ho + (c : Int) := by
      rw [tileBaseOffset]
      omega
    rw [hargeq]
  · -- every other row leaves the target cell unchanged
    intro b' g hgmem hne
    rw [mem_intRange] at hgmem
    by_cases h1 : T ≤ (g - ty * (T : Int)).toNat ∨ I ≤ (g - (D : Int)).toNat
    · rw [if_pos h1]
    · rw [if_neg h1]
      by_cases h2 : tileSimWidth ty T <
          (max ho (tx * (T : Int)) - tx * (T : Int)).toNat + tilePadding ty T
            + (min (ho + (W : Int)) (tx * (T : Int) + T) - max ho (tx * (T : Int))).toNat
      · rw [if_pos h2]
      · rw [if_neg h2]
        by_cases h3 : W + 2 * (D + I) <
            (max ho (tx * (T : Int)) - ho).toNat + (D + I)
              + (min (ho + (W : Int)) (tx * (T : Int) + T) - max ho (tx * (T : Int))).toNat
        · rw [if_pos h3]
        · rw [if_neg h3]
          simp only [writeRange]
          have hmiss : ¬((g - (D : Int)).toNat * (W + 2 * (D + I))
                + ((max ho (tx * (T : Int)) - ho).toNat + (D + I))
                ≤ r * (W + 2 * (D + I)) + (D + I + c)
              ∧ r * (W + 2 * (D + I)) + (D + I + c)
                < (g - (D : Int)).toNat * (W + 2 * (D + I))
                  + ((max ho (tx * (T : Int)) - ho).toNat + (D + I))
                  + (min (ho + (W : Int)) (tx * (T : Int) + T)
                    - max ho (tx * (T : Int))).toNat) := by
            rintro ⟨hlo, hhi⟩
            rcases Nat.lt_trichotomy ((g - (D : Int)).toNat) r with hlt | heq | hgt2
            · have h5 : ((g - (D : Int)).toNat + 1) * (W + 2 * (D + I))
                  ≤ r * (W + 2 * (D + I)) := Nat.mul_le_mul_right _ hlt
              have h6 : ((g - (D : Int)).toNat + 1) * (W + 2 * (D + I))
                  = (g - (D : Int)).toNat * (W + 2 * (D + I)) + (W + 2 * (D + I)) := by ring
              linarith [Nat.le_of_not_lt h3, hlo, hhi]
            · apply hne
              have h7 : (D : Int) ≤ g := le_trans (le_max_left _ _) hgmem.1
              omega
            · have h5 : (r + 1) * (W + 2 * (D + I))
                  ≤ (g - (D : Int)).toNat * (W + 2 * (D + I)) := Nat.mul_le_mul_right _ hgt2
              have h6 : (r + 1) * (W + 2 * (D + I))
                  = r * (W + 2 * (D + I)) + (W + 2 * (D + I)) := by ring
              have h8 : D + I + c < W + 2 * (D + I) := by omega
              linarith [hlo]
          rw [if_neg hmiss]
theorem runCa_visible_cell (rule D I W : Nat) (ho : Int) (state : Option (List Char))
    (r c : Nat) (hr : r < I) (hc : c < W) :
    (runCa rule D I W ho state).buffer (r * (W + 2 * (D + I)) + ((D + I) + c))
      = worldRow rule (worldInit state) (D + r) (ho + (c : Int)) := by
  have hcol : (D + I) + c < W + 2 * (D + I) := by omega
  show (if (r * (W + 2 * (D + I)) + ((D + I) + c)) / (W + 2 * (D + I)) < I + 1 then
      (simRows rule
        (buildInitialRow (W + 2 * (D + I)) (((D + I : Nat) : Int) - ho) state)
        (D + (r * (W + 2 * (D + I)) + ((D + I) + c)) / (W + 2 * (D + I)))).getD
        ((r * (W + 2 * (D + I)) + ((D + I) + c)) % (W + 2 * (D + I))) 0
    else 0) = _
  rw [flat_div _ _ _ hcol, flat_mod _ _ _ hcol, if_pos (by omega)]
  have hlen : (buildInitialRow (W + 2 * (D + I)) (((D + I : Nat) : Int) - ho) state).length
      = W + 2 * (D + I) := buildInitialRow_length _ _ _
  have h0 : ∀ p : Nat,
      p < (buildInitialRow (W + 2 * (D + I)) (((D + I : Nat) : Int) - ho) state).length →
      (buildInitialRow (W + 2 * (D + I)) (((D + I : Nat) : Int) - ho) state).getD p 0
        = worldInit state ((p : Int) - (((D + I : Nat) : Int) - ho)) := by
    intro p hp
    rw [hlen] at hp
    exact buildInitialRow_world _ _ _ p hp
  have happ := simRows_eq_worldRow rule
    (buildInitialRow (W + 2 * (D + I)) (((D + I : Nat) : Int) - ho) state)
    (worldInit state) (((D + I : Nat) : Int) - ho) h0 (D + r) ((D + I) + c)
    (by omega) (by rw [hlen]; omega)
  rw [happ]
  have harg : (((D + I) + c : Nat) : Int) - (((D + I : Nat) : Int) - ho)
      = ho + (c : Int) := by push_cast; ring
  rw [harg]

/-- C2: for every viewport rectangle inside generations `[0, N]` (any rule,
any initial state, any horizontal placement), whenever the tile cache can
hold the covering grid, `run_ca_with_cache` completes and the viewport
buffer assembled from tiles agrees on every visible cell with the buffer
produced by a single monolithic `run_ca` configured for the same
rectangle. -/
theorem run_ca_with_cache_refines_run_ca (rule D I W T : Nat) (ho : Int)
    (state : Option (List Char)) (cap : Nat) (hT : 0 < T)
    (hcap : (tilePairs (tileRangeStart (D : Int) (T : Int))
        (tileRangeEnd ((D + I : Nat) : Int) (T : Int))
        (tileRangeStart ho (T : Int))
        (tileRangeEnd (ho + (W : Int)) (T : Int))).length ≤ cap) :
    ∃ out, runCaWithCache rule D I W ho state T (TileCache.new cap) = some out ∧
      ∀ r : Nat, r < I → ∀ c : Nat, c < W →
        out.1.buffer (r * (W + 2 * (D + I)) + ((D + I) + c))
          = (runCa rule D I W ho state).buffer
              (r * (W + 2 * (D + I)) + ((D + I) + c)) := by
  have hTi : (0 : Int) < (T : Int) := by exact_mod_cast hT
  have hinj : Function.Injective
      (fun p : Int × Int => TileKeyGrid.new rule state p.2 p.1) := by
    intro p q h
    have h' : TileKeyGrid.new rule state p.2 p.1 = TileKeyGrid.new rule state q.2 q.1 := h
    have hx : p.2 = q.2 := congrArg TileKeyGrid.tile_x h'
    have hy : p.1 = q.1 := congrArg TileKeyGrid.tile_y h'
    exact Prod.ext hy hx
  have hnodup : ((tilePairs (tileRangeStart (D : Int) (T : Int))
      (tileRangeEnd ((D + I : Nat) : Int) (T : Int))
      (tileRangeStart ho (T : Int))
      (tileRangeEnd (ho + (W : Int)) (T : Int))).map
        (fun p => TileKeyGrid.new rule state p.2 p.1)).Nodup :=
    List.Nodup.map hinj (tilePairs_nodup _ _ _ _)
  have hmat := materializePhase_spec rule T state
    (tilePairs (tileRangeStart (D : Int) (T : Int))
      (tileRangeEnd ((D + I : Nat) : Int) (T : Int))
      (tileRangeStart ho (T : Int))
      (tileRangeEnd (ho + (W : Int)) (T : Int)))
    (TileCache.new cap) hnodup (fun p _ => rfl)
    (by
      show 0 + (tilePairs (tileRangeStart (D : Int) (T : Int))
        (tileRangeEnd ((D + I : Nat) : Int) (T : Int))
        (tileRangeStart ho (T : Int))
        (tileRangeEnd (ho + (W : Int)) (T : Int))).length ≤ cap
      omega)
  obtain ⟨c', hasm⟩ := assemblePhase_eq_pure rule T state ho (ho + (W : Int)) (D : Int)
    ((D + I : Nat) : Int) (D + I) (W + 2 * (D + I)) I
    (tilePairs (tileRangeStart (D : Int) (T : Int))
      (tileRangeEnd ((D + I : Nat) : Int) (T : Int))
      (tileRangeStart ho (T : Int))
      (tileRangeEnd (ho + (W : Int)) (T : Int)))
    (fun _ => 0)
    (materializePhase rule T state
      (tilePairs (tileRangeStart (D : Int) (T : Int))
        (tileRangeEnd ((D + I : Nat) : Int) (T : Int))
        (tileRangeStart ho (T : Int))
        (tileRangeEnd (ho + (W : Int)) (T : Int)))
      (TileCache.new cap))
    hmat.2
  have hrun : runCaWithCache rule D I W ho state T (TileCache.new cap)
      = some (CaResultM.mk
          ((tilePairs (tileRangeStart (D : Int) (T : Int))
            (tileRangeEnd ((D + I : Nat) : Int) (T : Int))
            (tileRangeStart ho (T : Int))
            (tileRangeEnd (ho + (W : Int)) (T : Int))).foldl
            (fun b p => assembleTile b (computeTile rule p.2 p.1 T state) p.1 p.2 T
              ho (ho + (W : Int)) (D : Int) ((D + I : Nat) : Int)
              (D + I) (W + 2 * (D + I)) I) (fun _ => 0))
          (W + 2 * (D + I)) W (I + 1) (D + I), c') := by
    simp only [runCaWithCache]
    rw [hasm]
  refine ⟨_, hrun, ?_⟩
  intro r hr c hc
  rw [runCa_visible_cell rule D I W ho state r c hr hc]
  show (tilePairs (tileRangeStart (D : Int) (T : Int))
      (tileRangeEnd ((D + I : Nat) : Int) (T : Int))
      (tileRangeStart ho (T : Int))
      (tileRangeEnd (ho + (W : Int)) (T : Int))).foldl
      (fun b p => assembleTile b (computeTile rule p.2 p.1 T state) p.1 p.2 T
        ho (ho + (W : Int)) (D : Int) ((D + I : Nat) : Int)
        (D + I) (W + 2 * (D + I)) I) (fun _ => 0)
      (r * (W + 2 * (D + I)) + ((D + I) + c))
    = worldRow rule (worldInit state) (D + r) (ho + (c : Int))
  obtain ⟨hy1, hy2⟩ := ediv_bounds ((D : Int) + (r : Int)) (T : Int) hTi
  obtain ⟨hx1, hx2⟩ := ediv_bounds (ho + (c : Int)) (T : Int) hTi
  have hty0 : 0 ≤ Int.ediv ((D : Int) + (r : Int)) (T : Int) :=
    Int.ediv_nonneg (by positivity) (by positivity)
  refine foldl_unique_write_idx _ _ _
    (Int.ediv ((D : Int) + (r : Int)) (T : Int), Int.ediv (ho + (c : Int)) (T : Int))
    _ _ ?_ ?_ ?_
  · refine (mem_tilePairs _ _ _ _ _ _).mpr ⟨⟨?_, ?_⟩, ?_, ?_⟩
    · exact Int.ediv_le_ediv hTi (by omega)
    · exact Int.ediv_le_ediv hTi (by push_cast; omega)
    · exact Int.ediv_le_ediv hTi (by omega)
    · exact Int.ediv_le_ediv hTi (by push_cast; omega)
  · intro b'
    exact assembleTile_covering rule state D I W T ho r c _ _ hT hr hc hty0 hy1 hy2 hx1 hx2 b'
  · intro b' p hp hne
    have hnc : Int.ediv ((D : Int) + (r : Int)) (T : Int) ≠ p.1 ∨
        Int.ediv (ho + (c : Int)) (T : Int) ≠ p.2 := by
      by_cases h1 : p.1 = Int.ediv ((D : Int) + (r : Int)) (T : Int)
      · by_cases h2 : p.2 = Int.ediv (ho + (c : Int)) (T : Int)
        · exact absurd (Prod.ext h1 h2) hne
        · exact Or.inr (fun he => h2 he.symm)
      · exact Or.inl (fun he => h1 he.symm)
    exact assembleTile_not_covering b' (computeTile rule p.2 p.1 T state) p.1 p.2 T
      ho (ho + (W : Int)) (D : Int) ((D + I : Nat) : Int) (D + I) (W + 2 * (D + I)) I
      r c hT (by omega) hnc

theorem run_ca_with_cache_refines_run_ca_witness :
    (0 < 1 ∧ (tilePairs (tileRangeStart ((0 : Nat) : Int) ((1 : Nat) : Int))
        (tileRangeEnd ((0 + 1 : Nat) : Int) ((1 : Nat) : Int))
        (tileRangeStart (0 : Int) ((1 : Nat) : Int))
        (tileRangeEnd ((0 : Int) + ((1 : Nat) : Int)) ((1 : Nat) : Int))).length ≤ 1) ∧
    ∃ out, runCaWithCache 30 0 1 1 0 none 1 (TileCache.new 1) = some out ∧
      ∀ r : Nat, r < 1 → ∀ c : Nat, c < 1 →
        out.1.buffer (r * (1 + 2 * (0 + 1)) + ((0 + 1) + c))
          = (runCa 30 0 1 1 0 none).buffer (r * (1 + 2 * (0 + 1)) + ((0 + 1) + c)) :=
  ⟨⟨by decide, by decide⟩,
    run_ca_with_cache_refines_run_ca 30 0 1 1 1 0 none 1 (by decide) (by decide)⟩
